import Mathlib

/-!
# Verification of the 7nm layout generator (`layout_generator.py`)

Shallow embedding of the generation pipeline: the quantized range sampler,
the randomized vertical track generator, the horizontal strap generator and
the via candidate / sampling / pitch-cleaning pipeline.

Modelling conventions:
* Python floats are embedded as `ℚ`.
* The seeded numpy random generator (`np.random.default_rng(seed)`) is an
  external library primitive; it is embedded as a stream `s : ℕ → ℚ` of unit
  draws together with a cursor index.  `rng.uniform(lo, hi)` consumes one
  draw `u` and yields `lo + u * (hi - lo)`; `rng.random()` consumes one draw.
  A fixed seed corresponds to a fixed stream.
* The `while` loops of the source are embedded with explicit fuel; running
  out of fuel yields `none`.  The fuel supplied by the wrappers is shown
  sufficient under the data-model invariants.
* `gdspy.Rectangle` becomes `Rect`; a gdspy cell becomes a `List Rect` in
  insertion order.
-/

/-- A rectangle tagged with `(layer, datatype)`, as built by
`gdspy.Rectangle((x0, y0), (x1, y1), layer=…, datatype=…)`. -/
structure Rect where
  x0 : ℚ
  y0 : ℚ
  x1 : ℚ
  y1 : ℚ
  layer : ℤ
  datatype : ℤ
deriving DecidableEq

/-- An axis-aligned bounding box `(x0, y0, x1, y1)`, as returned by `_bbox`. -/
structure BBox where
  x0 : ℚ
  y0 : ℚ
  x1 : ℚ
  y1 : ℚ
deriving DecidableEq

/-- A via center point `(cx, cy)`. -/
abbrev Point := ℚ × ℚ

/-- `MetalGenSpec` from the source (the `seed` field is represented by the
random stream passed separately, and the `cell_name` string is irrelevant to
the geometry). -/
structure MetalGenSpec where
  wire_cd : ℚ
  track_pitch : ℚ
  min_t2t : ℚ
  max_t2t : ℚ
  t2t_grid : ℚ
  min_length : ℚ
  max_length : ℚ
  total_x : ℚ
  total_y : ℚ
  layer : ℤ
  datatype : ℤ
  origin : ℚ × ℚ
deriving DecidableEq

/-- `ViaGenSpec` from the source (the `seed` field is represented by the
random stream passed separately). -/
structure ViaGenSpec where
  via_x : ℚ
  via_y : ℚ
  density : ℚ
  enclosure_x : ℚ
  enclosure_y : ℚ
  via_pitch_x : ℚ
  via_pitch_y : ℚ
  via_layer : ℤ
  via_datatype : ℤ
deriving DecidableEq

/-- The stream of unit draws backing a seeded rng produces values in
`[0, 1)`. -/
def ValidStream (s : ℕ → ℚ) : Prop := ∀ n, 0 ≤ s n ∧ s n < 1

/-- Python's built-in `round` (round half to even), on rationals. -/
def roundHalfEven (q : ℚ) : ℤ :=
  if q - q.floor < 1 / 2 then q.floor
  else if 1 / 2 < q - q.floor then q.floor + 1
  else if q.floor % 2 = 0 then q.floor else q.floor + 1

/-- `rng.uniform(lo, hi)` given the unit draw `u`. -/
def uniformDraw (lo hi u : ℚ) : ℚ := lo + u * (hi - lo)

/-- `_rand_quantized(rng, lo, hi, grid)` from the source, with the consumed
unit draw `u` made explicit.  Swaps a reversed range, returns the plain
uniform draw when `grid ≤ 0`, and otherwise rounds the draw to the nearest
multiple of `grid` and clamps into the swapped range. -/
def _rand_quantized (lo hi grid u : ℚ) : ℚ :=
  let lo' := min lo hi
  let hi' := max lo hi
  if grid ≤ 0 then uniformDraw lo' hi' u
  else
    let val := uniformDraw lo' hi' u
    let q := (roundHalfEven (val / grid) : ℚ) * grid
    min (max q lo') hi'

/-- Inner loop of `_draw_one_track_vertical`: fill one column starting at
cursor `y`, consuming draws from `s` starting at index `idx`.  `fuel`
bounds the number of loop iterations; exhaustion yields `none`. -/
def _draw_one_track_aux (s : ℕ → ℚ) (spec : MetalGenSpec) (x_base : ℚ) :
    ℕ → ℚ → ℕ → Option (List Rect × ℕ)
  | 0, y, idx => if y < spec.total_y then none else some ([], idx)
  | fuel + 1, y, idx =>
    if y < spec.total_y then
      let l_hi := min spec.max_length (spec.total_y - y)
      if l_hi < spec.min_length then some ([], idx)
      else
        let l := _rand_quantized spec.min_length l_hi 0 (s idx)
        let r : Rect :=
          ⟨spec.origin.1 + x_base, spec.origin.2 + y,
           spec.origin.1 + x_base + spec.wire_cd, spec.origin.2 + y + l,
           spec.layer, spec.datatype⟩
        if spec.total_y ≤ y + l then some ([r], idx + 1)
        else
          let t_hi := min spec.max_t2t (spec.total_y - (y + l))
          if t_hi < spec.min_t2t then some ([r], idx + 1)
          else
            let t := _rand_quantized spec.min_t2t t_hi spec.t2t_grid (s (idx + 1))
            (_draw_one_track_aux s spec x_base fuel (y + l + t) (idx + 2)).map
              (fun p => (r :: p.1, p.2))
    else some ([], idx)

/-- Fuel sufficient for one column: each iteration advances the cursor by at
least `min_length`. -/
def inner_fuel (spec : MetalGenSpec) : ℕ :=
  ((spec.total_y / spec.min_length).floor).toNat + 2

/-- `_draw_one_track_vertical(cell, x_base, spec, rng)` from the source:
returns the rectangles emitted for the column at `x_base` together with the
advanced rng cursor. -/
def _draw_one_track_vertical (s : ℕ → ℚ) (spec : MetalGenSpec) (x_base : ℚ)
    (idx : ℕ) : Option (List Rect × ℕ) :=
  _draw_one_track_aux s spec x_base (inner_fuel spec) 0 idx

/-- Outer loop of `draw_metal_cell_vertical`: one column per pitch step while
`x + wire_cd ≤ total_x`. -/
def draw_metal_cols_aux (s : ℕ → ℚ) (spec : MetalGenSpec) :
    ℕ → ℚ → ℕ → Option (List Rect × ℕ)
  | 0, x, idx => if x + spec.wire_cd ≤ spec.total_x then none else some ([], idx)
  | fuel + 1, x, idx =>
    if x + spec.wire_cd ≤ spec.total_x then
      (_draw_one_track_vertical s spec x idx).bind (fun p =>
        (draw_metal_cols_aux s spec fuel (x + spec.track_pitch) p.2).map
          (fun q => (p.1 ++ q.1, q.2)))
    else some ([], idx)

/-- Fuel sufficient for the column loop: each iteration advances `x` by
`track_pitch`. -/
def outer_fuel (spec : MetalGenSpec) : ℕ :=
  ((spec.total_x / spec.track_pitch).floor).toNat + 2

/-- `draw_metal_cell_vertical(spec)` from the source: the full randomized
vertical metal layer, as the list of emitted rectangles in insertion
order. -/
def draw_metal_cell_vertical (spec : MetalGenSpec) (s : ℕ → ℚ) :
    Option (List Rect) :=
  (draw_metal_cols_aux s spec (outer_fuel spec) 0 0).map (fun p => p.1)

/-- Loop of `draw_metal1`: fixed-pitch straps while `y + width ≤ total_y`. -/
def draw_metal1_aux (length_x width pitch total_y : ℚ) (layer datatype : ℤ) :
    ℕ → ℚ → Option (List Rect)
  | 0, y => if y + width ≤ total_y then none else some []
  | fuel + 1, y =>
    if y + width ≤ total_y then
      (draw_metal1_aux length_x width pitch total_y layer datatype fuel (y + pitch)).map
        (fun rs => ⟨0, y, length_x, y + width, layer, datatype⟩ :: rs)
    else some []

/-- Fuel sufficient for the strap loop when `pitch > 0`. -/
def strap_fuel (pitch total_y : ℚ) : ℕ := ((total_y / pitch).floor).toNat + 2

/-- `draw_metal1(lib, length_x, width, pitch, total_y, layer, datatype)` from
the source: the list of strap rectangles added to the cell. -/
def draw_metal1 (length_x width pitch total_y : ℚ) (layer datatype : ℤ) :
    Option (List Rect) :=
  draw_metal1_aux length_x width pitch total_y layer datatype
    (strap_fuel pitch total_y) 0

/-- `_get_layer_polys(cell, layer)` from the source (datatype defaults
to 0). -/
def _get_layer_polys (cell : List Rect) (layer : ℤ) : List Rect :=
  cell.filter (fun r => r.layer == layer && r.datatype == 0)

/-- `_bbox(poly)` from the source: min/max over the polygon's points, for a
rectangle its normalized corner coordinates. -/
def _bbox (r : Rect) : BBox :=
  ⟨min r.x0 r.x1, min r.y0 r.y1, max r.x0 r.x1, max r.y0 r.y1⟩

/-- `_rect_from_bbox(b)` from the source: `None` for a collapsed or inverted
box. -/
def _rect_from_bbox (b : BBox) : Option BBox :=
  if b.x1 ≤ b.x0 ∨ b.y1 ≤ b.y0 then none else some b

/-- `_assist_polys_horizontal(polys, ex)` from the source: shrink each
rectangle horizontally by `ex` per side, dropping collapsed results. -/
def _assist_polys_horizontal (polys : List Rect) (ex : ℚ) : List BBox :=
  polys.filterMap (fun p =>
    let b := _bbox p
    _rect_from_bbox ⟨b.x0 + ex, b.y0, b.x1 - ex, b.y1⟩)

/-- `_assist_polys_vertical(polys, ey)` from the source: shrink each
rectangle vertically by `ey` per side, dropping collapsed results. -/
def _assist_polys_vertical (polys : List Rect) (ey : ℚ) : List BBox :=
  polys.filterMap (fun p =>
    let b := _bbox p
    _rect_from_bbox ⟨b.x0, b.y0 + ey, b.x1, b.y1 - ey⟩)

/-- Modelled from the spec: the external 2D geometry kernel
(`gdspy.boolean(…, 'and', …)`) is out of scope in the source and is specified
as boolean intersection of axis-aligned rectangle sets.  The intersection of
two axis-aligned rectangles, `none` when it has no area. -/
def interBBox (a b : BBox) : Option BBox :=
  let r : BBox := ⟨max a.x0 b.x0, max a.y0 b.y0, min a.x1 b.x1, min a.y1 b.y1⟩
  if r.x0 < r.x1 ∧ r.y0 < r.y1 then some r else none

/-- Modelled from the spec: the candidate boxes produced by the external
boolean-intersection kernel on two axis-aligned rectangle sets — all
pairwise overlaps with positive area (for axis-aligned inputs the bounding
box of each overlap is the overlap itself). -/
def rectIntersections (as bs : List BBox) : List BBox :=
  (as.map (fun a => bs.filterMap (fun b => interBBox a b))).flatten

/-- `_calc_candidates` of the source, factored over the two extracted layer
poly lists. -/
def calc_candidates_from_polys (pm1 pm2 : List Rect) (ex ey : ℚ) : List BBox :=
  let am1 := _assist_polys_horizontal pm1 ex
  let am2 := _assist_polys_vertical pm2 ey
  if am1 = [] ∨ am2 = [] then [] else rectIntersections am1 am2

/-- `_calc_candidates(cell, m1_layer, m2_layer, ex_nm, ey_nm)` from the
source. -/
def _calc_candidates (cell : List Rect) (m1_layer m2_layer : ℤ) (ex ey : ℚ) :
    List BBox :=
  calc_candidates_from_polys (_get_layer_polys cell m1_layer)
    (_get_layer_polys cell m2_layer) ex ey

/-- Loop of `_sample_centers_from_bboxes`: one `rng.random()` draw per
size-passing candidate, kept iff the draw is `< density`. -/
def _sample_centers_aux (s : ℕ → ℚ) (vx vy density : ℚ) :
    List BBox → ℕ → List Point × ℕ
  | [], idx => ([], idx)
  | bb :: rest, idx =>
    if vx ≤ bb.x1 - bb.x0 ∧ vy ≤ bb.y1 - bb.y0 then
      let u := s idx
      let p := _sample_centers_aux s vx vy density rest (idx + 1)
      if u < density then (((bb.x0 + bb.x1) / 2, (bb.y0 + bb.y1) / 2) :: p.1, p.2)
      else p
    else _sample_centers_aux s vx vy density rest idx

/-- `_sample_centers_from_bboxes(bboxes, vx, vy, rng, density)` from the
source. -/
def _sample_centers_from_bboxes (bboxes : List BBox) (vx vy : ℚ)
    (s : ℕ → ℚ) (density : ℚ) : List Point × ℕ :=
  _sample_centers_aux s vx vy density bboxes 0

/-- Insert into a key-sorted list after all entries with key `≤` the new
key (a stable insertion, matching Python's stable `list.sort`). -/
def insertSorted {α : Type} (key : α → ℚ) (x : α) : List α → List α
  | [] => [x]
  | y :: ys => if key y ≤ key x then y :: insertSorted key x ys else x :: y :: ys

/-- Insertion-sort accumulator loop. -/
def sortAux {α : Type} (key : α → ℚ) : List α → List α → List α
  | acc, [] => acc
  | acc, x :: xs => sortAux key (insertSorted key x acc) xs

/-- Stable sort by a rational key (Python `list.sort(key=…)` /
`sorted(…)`). -/
def sortByKey {α : Type} (key : α → ℚ) (l : List α) : List α :=
  sortAux key [] l

/-- Tolerance-deduplication loop of `_unique_positions`: keep `v` iff its
distance from the last kept value exceeds `tol`. -/
def uniqAux (tol : ℚ) : ℚ → List ℚ → List ℚ
  | _, [] => []
  | last, v :: vs =>
    if tol < |v - last| then v :: uniqAux tol v vs else uniqAux tol last vs

/-- `_unique_positions(vals, tol)` from the source. -/
def _unique_positions (vals : List ℚ) (tol : ℚ) : List ℚ :=
  match sortByKey id vals with
  | [] => []
  | v :: vs => v :: uniqAux tol v vs

/-- First-minimal scan of `nearest_idx`: Python's `min(range(len(arr)),
key=…)` keeps the first index attaining the minimum. -/
def nearestAux (v : ℚ) : List ℚ → ℕ → ℕ → ℚ → ℕ
  | [], _, b, _ => b
  | a :: rest, i, b, bd =>
    if |a - v| < bd then nearestAux v rest (i + 1) i |a - v|
    else nearestAux v rest (i + 1) b bd

/-- `nearest_idx(v, arr)` from `_pitch_clean`: index of the first element of
`arr` at minimal distance from `v`, `-1` for an empty list. -/
def nearest_idx (v : ℚ) (arr : List ℚ) : ℤ :=
  match arr with
  | [] => -1
  | a :: rest => (nearestAux v rest 1 0 |a - v| : ℤ)

/-- The deduplicated x-track positions (horizontal centers of the m2
rectangles) used by `_pitch_clean` (`tol = 1e-3`). -/
def x_tracks_of (polys_m2 : List Rect) : List ℚ :=
  _unique_positions (polys_m2.map (fun p => ((_bbox p).x0 + (_bbox p).x1) / 2))
    (1 / 1000)

/-- The deduplicated y-track positions (vertical centers of the m1
rectangles) used by `_pitch_clean` (`tol = 1e-3`). -/
def y_tracks_of (polys_m1 : List Rect) : List ℚ :=
  _unique_positions (polys_m1.map (fun p => ((_bbox p).y0 + (_bbox p).y1) / 2))
    (1 / 1000)

/-- Ordered grouping as done by `dict.setdefault` on a Python dict: append
the value to its key's group, creating the group at the end on first
sight. -/
def groupInsert {κ α : Type} [DecidableEq κ] (k : κ) (v : α) :
    List (κ × List α) → List (κ × List α)
  | [] => [(k, [v])]
  | (k', g) :: rest =>
    if k' = k then (k', g ++ [v]) :: rest else (k', g) :: groupInsert k v rest

/-- Build the insertion-ordered key → group map of `_pitch_clean`. -/
def groupByKey {κ α : Type} [DecidableEq κ] (key : α → κ) :
    List (κ × List α) → List α → List (κ × List α)
  | m, [] => m
  | m, v :: vs => groupByKey key (groupInsert (key v) v m) vs

/-- The greedy minimum-pitch sweep of `_pitch_clean`: keep a point iff its
key distance from the last kept point is `≥ vp` (the first point is always
kept). -/
def sweepAux {α : Type} (vp : ℚ) (key : α → ℚ) :
    Option ℚ → List α → List α
  | _, [] => []
  | none, p :: ps => p :: sweepAux vp key (some (key p)) ps
  | some lastv, p :: ps =>
    if vp ≤ key p - lastv then p :: sweepAux vp key (some (key p)) ps
    else sweepAux vp key (some lastv) ps

/-- `_pitch_clean(centers, vpx, vpy, polys_m1, polys_m2)` from the source:
group by nearest x-track and greedily enforce `vpy` vertically, then regroup
the survivors by nearest y-track and greedily enforce `vpx`
horizontally. -/
def _pitch_clean (centers : List Point) (vpx vpy : ℚ)
    (polys_m1 polys_m2 : List Rect) : List Point :=
  if centers = [] then []
  else
    let xts := x_tracks_of polys_m2
    let yts := y_tracks_of polys_m1
    let col_map := groupByKey (fun c => nearest_idx c.1 xts) [] centers
    let kept := (col_map.map
      (fun kg => sweepAux vpy (fun c => c.2) none (sortByKey (fun c => c.2) kg.2))).flatten
    let row_map := groupByKey (fun c => nearest_idx c.2 yts) [] kept
    (row_map.map
      (fun kg => sweepAux vpx (fun c => c.1) none (sortByKey (fun c => c.1) kg.2))).flatten

/-- The final via rectangle of size `via_x × via_y` centered at `c`. -/
def via_rect_at (spec : ViaGenSpec) (c : Point) : Rect :=
  ⟨c.1 - spec.via_x / 2, c.2 - spec.via_y / 2,
   c.1 + spec.via_x / 2, c.2 + spec.via_y / 2,
   spec.via_layer, spec.via_datatype⟩

/-- `generate_vias_from_metals(lib, spec, m1_layer, m2_layer)` from the
source: the list of via rectangles appended to the cell. -/
def generate_vias_from_metals (cell : List Rect) (spec : ViaGenSpec)
    (m1_layer m2_layer : ℤ) (s : ℕ → ℚ) : List Rect :=
  let bboxes := _calc_candidates cell m1_layer m2_layer
    spec.enclosure_x spec.enclosure_y
  let centers := (_sample_centers_from_bboxes bboxes spec.via_x spec.via_y s
    spec.density).1
  let polys_m1 := _get_layer_polys cell m1_layer
  let polys_m2 := _get_layer_polys cell m2_layer
  let final := _pitch_clean centers spec.via_pitch_x spec.via_pitch_y
    polys_m1 polys_m2
  final.map (via_rect_at spec)

/-- The inputs of one full pipeline run (`__main__` driver order:
`draw_metal_cell_vertical`, then `draw_metal1`, then
`generate_vias_from_metals`).  The two streams stand for the two seeded
rngs. -/
structure PipelineInput where
  mspec : MetalGenSpec
  m1_length_x : ℚ
  m1_width : ℚ
  m1_pitch : ℚ
  m1_layer : ℤ
  m2_layer : ℤ
  vspec : ViaGenSpec
  metal_stream : ℕ → ℚ
  via_stream : ℕ → ℚ

/-- One full pipeline run: the final cell contents (tracks, then straps,
then vias, in insertion order). -/
def fullPipeline (inp : PipelineInput) : Option (List Rect) :=
  match draw_metal_cell_vertical inp.mspec inp.metal_stream with
  | none => none
  | some tracks =>
    match draw_metal1 inp.m1_length_x inp.m1_width inp.m1_pitch
        inp.mspec.total_y inp.m1_layer 0 with
    | none => none
    | some straps =>
      let cell := tracks ++ straps
      let vias := generate_vias_from_metals cell inp.vspec
        inp.m1_layer inp.m2_layer inp.via_stream
      some (cell ++ vias)

/-- Containment of a rectangle in a box, including strictly positive width
and height. -/
def rect_in_box (r : Rect) (bx0 by0 bx1 by1 : ℚ) : Prop :=
  bx0 ≤ r.x0 ∧ r.x0 < r.x1 ∧ r.x1 ≤ bx1 ∧
  by0 ≤ r.y0 ∧ r.y0 < r.y1 ∧ r.y1 ≤ by1

/-- All values stored in a grouping map sit under their own key. -/
def GoodMap {κ α : Type} (key : α → κ) (m : List (κ × List α)) : Prop :=
  ∀ e ∈ m, ∀ x ∈ e.2, key x = e.1

def specW : MetalGenSpec := ⟨1, 2, 1, 1, 1, 1, 1, 3, 1, 111, 0, (0, 0)⟩

def tracksW : List Rect := [⟨0, 0, 1, 1, 111, 0⟩, ⟨2, 0, 3, 1, 111, 0⟩]

def strapsW : List Rect := [⟨0, 0, 3, 1, 110, 0⟩]

def cellW : List Rect := tracksW ++ strapsW

def vspecW : ViaGenSpec := ⟨1, 1, 1, 0, 0, 0, 0, 112, 0⟩

def vspecD0 : ViaGenSpec := ⟨1, 1, 0, 0, 0, 0, 0, 112, 0⟩

def specC6 : MetalGenSpec := ⟨1, 2, 1, 1, 0, 1, 1, 2, 3, 111, 0, (0, 0)⟩

def C2_bad_spec : MetalGenSpec := ⟨1, 1, 1, 1, 1, 2, 1, 5, 5, 111, 0, (0, 0)⟩

def C2_bad_spec2 : MetalGenSpec := ⟨1, 2, 1, 1, 1, 3, 2, 4, 6, 111, 0, (0, 0)⟩

def pipeInputW : PipelineInput :=
  ⟨specW, 3, 1, 2, 110, 111, vspecW, fun _ => 1 / 2, fun _ => 1 / 2⟩

/-! ## Basic lemmas about the quantized sampler -/

theorem uniformDraw_le (lo hi u : ℚ) (hle : lo ≤ hi) (h0 : 0 ≤ u) (h1 : u < 1) :
    lo ≤ uniformDraw lo hi u ∧ uniformDraw lo hi u ≤ hi := by
  unfold uniformDraw
  constructor
  · nlinarith
  · nlinarith

theorem uniformDraw_lt (lo hi u : ℚ) (hlt : lo < hi) (h1 : u < 1) :
    uniformDraw lo hi u < hi := by
  unfold uniformDraw
  nlinarith

theorem rand_quantized_grid_nonpos (lo hi grid u : ℚ) (hg : grid ≤ 0) :
    _rand_quantized lo hi grid u = uniformDraw (min lo hi) (max lo hi) u := by
  simp [_rand_quantized, hg]

theorem rand_quantized_grid_pos (lo hi grid u : ℚ) (hg : ¬ grid ≤ 0) :
    _rand_quantized lo hi grid u =
      min (max ((roundHalfEven (uniformDraw (min lo hi) (max lo hi) u / grid) : ℚ) * grid)
        (min lo hi)) (max lo hi) := by
  simp [_rand_quantized, hg]

theorem rand_quantized_bounds (lo hi grid u : ℚ) (h0 : 0 ≤ u) (h1 : u < 1) :
    min lo hi ≤ _rand_quantized lo hi grid u ∧
      _rand_quantized lo hi grid u ≤ max lo hi := by
  have hmm : min lo hi ≤ max lo hi := min_le_max
  by_cases hg : grid ≤ 0
  · rw [rand_quantized_grid_nonpos lo hi grid u hg]
    exact uniformDraw_le _ _ _ hmm h0 h1
  · rw [rand_quantized_grid_pos lo hi grid u hg]
    exact ⟨le_min (le_max_right _ _) hmm, min_le_right _ _⟩

/-! ## Fuel arithmetic -/

theorem lt_fuel_mul (a b : ℚ) (hb : 0 < b) :
    a < ((((a / b).floor).toNat + 2 : ℕ) : ℚ) * b := by
  have hfl : (a / b).floor = ⌊a / b⌋ := by
    rw [Rat.floor_def, Rat.floor_def']
  have h1 : a / b < ((⌊a / b⌋ : ℤ) : ℚ) + 1 := Int.lt_floor_add_one _
  have h2 : ((⌊a / b⌋ : ℤ) : ℚ) ≤ ((⌊a / b⌋.toNat : ℤ) : ℚ) := by
    exact_mod_cast Int.self_le_toNat _
  have h3 : a / b < ((⌊a / b⌋.toNat : ℕ) : ℚ) + 2 := by
    push_cast at h2 ⊢
    linarith
  have h4 : a < (((⌊a / b⌋.toNat : ℕ) : ℚ) + 2) * b := by
    have := mul_lt_mul_of_pos_right h3 hb
    rwa [div_mul_cancel₀ a (ne_of_gt hb)] at this
  have h5 : (((((a / b).floor).toNat + 2 : ℕ)) : ℚ) =
      ((⌊a / b⌋.toNat : ℕ) : ℚ) + 2 := by
    rw [hfl]
    push_cast
    ring
  rw [h5]
  exact h4

/-! ## Termination of the track generator -/

theorem track_aux_isSome (s : ℕ → ℚ) (spec : MetalGenSpec) (x_base : ℚ)
    (hs : ValidStream s) (hml : 0 < spec.min_length) (ht : 0 < spec.min_t2t) :
    ∀ (fuel : ℕ) (y : ℚ) (idx : ℕ),
      spec.total_y - y ≤ (fuel : ℚ) * spec.min_length →
      (_draw_one_track_aux s spec x_base fuel y idx).isSome := by
  intro fuel
  induction fuel with
  | zero =>
    intro y idx h
    have hy : ¬ y < spec.total_y := by
      simp only [Nat.cast_zero, zero_mul] at h
      intro hc; linarith
    simp [_draw_one_track_aux, hy]
  | succ n ih =>
    intro y idx h
    by_cases hy : y < spec.total_y
    · simp only [_draw_one_track_aux, hy, if_true]
      by_cases hbrk : min spec.max_length (spec.total_y - y) < spec.min_length
      · simp [hbrk]
      · simp only [hbrk, if_false]
        set l := _rand_quantized spec.min_length
          (min spec.max_length (spec.total_y - y)) 0 (s idx) with hl
        have hlge : spec.min_length ≤ l := by
          have := (rand_quantized_bounds spec.min_length
            (min spec.max_length (spec.total_y - y)) 0 (s idx)
            (hs idx).1 (hs idx).2).1
          rwa [min_eq_left (le_of_not_lt hbrk)] at this
        by_cases hfull : spec.total_y ≤ y + l
        · simp [hfull]
        · simp only [hfull, if_false]
          by_cases hgbrk : min spec.max_t2t (spec.total_y - (y + l)) < spec.min_t2t
          · simp [hgbrk]
          · simp only [hgbrk, if_false]
            set t := _rand_quantized spec.min_t2t
              (min spec.max_t2t (spec.total_y - (y + l))) spec.t2t_grid
              (s (idx + 1)) with htdef
            have htge : spec.min_t2t ≤ t := by
              have := (rand_quantized_bounds spec.min_t2t
                (min spec.max_t2t (spec.total_y - (y + l))) spec.t2t_grid
                (s (idx + 1)) (hs (idx + 1)).1 (hs (idx + 1)).2).1
              rwa [min_eq_left (le_of_not_lt hgbrk)] at this
            have hbound : spec.total_y - (y + l + t) ≤ (n : ℚ) * spec.min_length := by
              have hc : ((n + 1 : ℕ) : ℚ) = (n : ℚ) + 1 := by push_cast; ring
              rw [hc] at h
              nlinarith
            have := ih (y + l + t) (idx + 2) hbound
            obtain ⟨val, hval⟩ := Option.isSome_iff_exists.mp this
            rw [hval]
            cases val with
            | mk rs idx' => simp
    · simp [_draw_one_track_aux, hy]

theorem track_col_isSome (s : ℕ → ℚ) (spec : MetalGenSpec) (x_base : ℚ)
    (idx : ℕ) (hs : ValidStream s) (hml : 0 < spec.min_length)
    (ht : 0 < spec.min_t2t) :
    (_draw_one_track_vertical s spec x_base idx).isSome := by
  apply track_aux_isSome s spec x_base hs hml ht
  have := lt_fuel_mul spec.total_y spec.min_length hml
  unfold inner_fuel
  linarith [this]

theorem cols_aux_isSome (s : ℕ → ℚ) (spec : MetalGenSpec)
    (hs : ValidStream s) (hml : 0 < spec.min_length) (ht : 0 < spec.min_t2t)
    (hw : 0 < spec.wire_cd) (hp : 0 < spec.track_pitch) :
    ∀ (fuel : ℕ) (x : ℚ) (idx : ℕ),
      spec.total_x - x < (fuel : ℚ) * spec.track_pitch →
      (draw_metal_cols_aux s spec fuel x idx).isSome := by
  intro fuel
  induction fuel with
  | zero =>
    intro x idx h
    have hx : ¬ x + spec.wire_cd ≤ spec.total_x := by
      simp only [Nat.cast_zero, zero_mul] at h
      intro hc; linarith
    simp [draw_metal_cols_aux, hx]
  | succ n ih =>
    intro x idx h
    by_cases hx : x + spec.wire_cd ≤ spec.total_x
    · simp only [draw_metal_cols_aux, hx, if_true]
      obtain ⟨⟨rs, idx'⟩, hval⟩ := Option.isSome_iff_exists.mp
        (track_col_isSome s spec x idx hs hml ht)
      rw [hval]
      have hbound : spec.total_x - (x + spec.track_pitch) < (n : ℚ) * spec.track_pitch := by
        have hc : ((n + 1 : ℕ) : ℚ) = (n : ℚ) + 1 := by push_cast; ring
        rw [hc] at h
        nlinarith
      obtain ⟨⟨rs2, idx''⟩, hval2⟩ := Option.isSome_iff_exists.mp
        (ih (x + spec.track_pitch) idx' hbound)
      simp only [Option.some_bind, hval2, Option.map_some', Option.isSome_some]
    · simp [draw_metal_cols_aux, hx]

/-! ## Geometry of the emitted track rectangles -/

theorem track_aux_props (s : ℕ → ℚ) (spec : MetalGenSpec) (x_base : ℚ)
    (hs : ValidStream s) (hml : 0 < spec.min_length) (ht : 0 < spec.min_t2t) :
    ∀ (fuel : ℕ) (y : ℚ) (idx : ℕ) (rs : List Rect) (idx' : ℕ), 0 ≤ y →
      _draw_one_track_aux s spec x_base fuel y idx = some (rs, idx') →
      ∀ r ∈ rs,
        r.x0 = spec.origin.1 + x_base ∧
        r.x1 = spec.origin.1 + x_base + spec.wire_cd ∧
        spec.origin.2 ≤ r.y0 ∧ r.y0 < r.y1 ∧
        r.y1 ≤ spec.origin.2 + spec.total_y ∧
        r.layer = spec.layer ∧ r.datatype = spec.datatype := by
  intro fuel
  induction fuel with
  | zero =>
    intro y idx rs idx' hy0 h
    by_cases hy : y < spec.total_y
    · simp [_draw_one_track_aux, hy] at h
    · simp only [_draw_one_track_aux, hy, if_false] at h
      simp only [Option.some_inj, Prod.mk.injEq] at h
      obtain ⟨h1, _⟩ := h
      subst h1
      intro r hr
      simp at hr
  | succ n ih =>
    intro y idx rs idx' hy0 h
    by_cases hy : y < spec.total_y
    · simp only [_draw_one_track_aux] at h
      rw [if_pos hy] at h
      by_cases hbrk : min spec.max_length (spec.total_y - y) < spec.min_length
      · rw [if_pos hbrk] at h
        simp only [Option.some_inj, Prod.mk.injEq] at h
        obtain ⟨h1, _⟩ := h
        subst h1
        intro r hr
        simp at hr
      · rw [if_neg hbrk] at h
        set l := _rand_quantized spec.min_length
          (min spec.max_length (spec.total_y - y)) 0 (s idx) with hl
        have hlge : spec.min_length ≤ l := by
          have := (rand_quantized_bounds spec.min_length
            (min spec.max_length (spec.total_y - y)) 0 (s idx)
            (hs idx).1 (hs idx).2).1
          rwa [min_eq_left (le_of_not_lt hbrk)] at this
        have hlle : l ≤ spec.total_y - y := by
          have := (rand_quantized_bounds spec.min_length
            (min spec.max_length (spec.total_y - y)) 0 (s idx)
            (hs idx).1 (hs idx).2).2
          rw [max_eq_right (le_of_not_lt hbrk)] at this
          exact le_trans this (min_le_right _ _)
        have hprops : ∀ r : Rect,
            r = ⟨spec.origin.1 + x_base, spec.origin.2 + y,
                 spec.origin.1 + x_base + spec.wire_cd, spec.origin.2 + y + l,
                 spec.layer, spec.datatype⟩ →
            r.x0 = spec.origin.1 + x_base ∧
            r.x1 = spec.origin.1 + x_base + spec.wire_cd ∧
            spec.origin.2 ≤ r.y0 ∧ r.y0 < r.y1 ∧
            r.y1 ≤ spec.origin.2 + spec.total_y ∧
            r.layer = spec.layer ∧ r.datatype = spec.datatype := by
          intro r hr
          subst hr
          refine ⟨rfl, rfl, by simp; linarith, by simp; linarith,
            by simp; linarith, rfl, rfl⟩
        by_cases hfull : spec.total_y ≤ y + l
        · rw [if_pos hfull] at h
          simp only [Option.some_inj, Prod.mk.injEq] at h
          obtain ⟨h1, _⟩ := h
          subst h1
          intro r hr
          simp only [List.mem_singleton] at hr
          exact hprops r hr
        · rw [if_neg hfull] at h
          by_cases hgbrk : min spec.max_t2t (spec.total_y - (y + l)) < spec.min_t2t
          · rw [if_pos hgbrk] at h
            simp only [Option.some_inj, Prod.mk.injEq] at h
            obtain ⟨h1, _⟩ := h
            subst h1
            intro r hr
            simp only [List.mem_singleton] at hr
            exact hprops r hr
          · rw [if_neg hgbrk] at h
            set t := _rand_quantized spec.min_t2t
              (min spec.max_t2t (spec.total_y - (y + l))) spec.t2t_grid
              (s (idx + 1)) with htdef
            have htge : spec.min_t2t ≤ t := by
              have := (rand_quantized_bounds spec.min_t2t
                (min spec.max_t2t (spec.total_y - (y + l))) spec.t2t_grid
                (s (idx + 1)) (hs (idx + 1)).1 (hs (idx + 1)).2).1
              rwa [min_eq_left (le_of_not_lt hgbrk)] at this
            cases haux : _draw_one_track_aux s spec x_base n (y + l + t) (idx + 2) with
            | none =>
              rw [haux] at h
              simp at h
            | some p =>
              rw [haux] at h
              obtain ⟨rs', idx2⟩ := p
              simp only [Option.map_some', Option.some_inj, Prod.mk.injEq] at h
              obtain ⟨h1, _⟩ := h
              subst h1
              intro r hr
              rcases List.mem_cons.mp hr with hr | hr
              · exact hprops r hr
              · exact ih (y + l + t) (idx + 2) rs' idx2 (by linarith) haux r hr
    · simp only [_draw_one_track_aux] at h
      rw [if_neg hy] at h
      simp only [Option.some_inj, Prod.mk.injEq] at h
      obtain ⟨h1, _⟩ := h
      subst h1
      intro r hr
      simp at hr

theorem cols_aux_props (s : ℕ → ℚ) (spec : MetalGenSpec)
    (hs : ValidStream s) (hml : 0 < spec.min_length) (ht : 0 < spec.min_t2t)
    (hw : 0 < spec.wire_cd) (hp : 0 < spec.track_pitch) :
    ∀ (fuel : ℕ) (x : ℚ) (idx : ℕ) (rs : List Rect) (idx' : ℕ), 0 ≤ x →
      draw_metal_cols_aux s spec fuel x idx = some (rs, idx') →
      ∀ r ∈ rs,
        rect_in_box r spec.origin.1 spec.origin.2
          (spec.origin.1 + spec.total_x) (spec.origin.2 + spec.total_y) ∧
        r.layer = spec.layer ∧ r.datatype = spec.datatype := by
  intro fuel
  induction fuel with
  | zero =>
    intro x idx rs idx' hx0 h
    by_cases hx : x + spec.wire_cd ≤ spec.total_x
    · simp [draw_metal_cols_aux, hx] at h
    · simp only [draw_metal_cols_aux, hx, if_false] at h
      simp only [Option.some_inj, Prod.mk.injEq] at h
      obtain ⟨h1, _⟩ := h
      subst h1
      intro r hr
      simp at hr
  | succ n ih =>
    intro x idx rs idx' hx0 h
    by_cases hx : x + spec.wire_cd ≤ spec.total_x
    · simp only [draw_metal_cols_aux] at h
      rw [if_pos hx] at h
      cases htr : _draw_one_track_vertical s spec x idx with
      | none => rw [htr] at h; simp at h
      | some p =>
        rw [htr] at h
        obtain ⟨rs1, idx1⟩ := p
        simp only [Option.some_bind] at h
        cases hrec : draw_metal_cols_aux s spec n (x + spec.track_pitch) idx1 with
        | none =>
          rw [hrec] at h
          simp at h
        | some p2 =>
          rw [hrec] at h
          obtain ⟨rs2, idx2⟩ := p2
          simp only [Option.map_some', Option.some_inj, Prod.mk.injEq] at h
          obtain ⟨h1, _⟩ := h
          subst h1
          intro r hr
          rcases List.mem_append.mp hr with hr | hr
          · have := track_aux_props s spec x hs hml ht
              (inner_fuel spec) 0 idx rs1 idx1 le_rfl htr r hr
            obtain ⟨he0, he1, hy0, hy01, hy1, hlay, hdt⟩ := this
            refine ⟨⟨?_, ?_, ?_, hy0, hy01, hy1⟩, hlay, hdt⟩
            · rw [he0]; linarith
            · rw [he0, he1]; linarith
            · rw [he1]; linarith
          · exact ih (x + spec.track_pitch) idx1 rs2 idx2 (by linarith) hrec r hr
    · simp only [draw_metal_cols_aux, hx, if_false] at h
      simp only [Option.some_inj, Prod.mk.injEq] at h
      obtain ⟨h1, _⟩ := h
      subst h1
      intro r hr
      simp at hr

/-! ## Geometry of the emitted strap rectangles -/

theorem strap_aux_props (length_x width pitch total_y : ℚ) (lay dt : ℤ)
    (hlx : 0 < length_x) (hwd : 0 < width) (hpit : 0 ≤ pitch) :
    ∀ (fuel : ℕ) (y : ℚ) (rs : List Rect), 0 ≤ y →
      draw_metal1_aux length_x width pitch total_y lay dt fuel y = some rs →
      ∀ r ∈ rs,
        rect_in_box r 0 0 length_x total_y ∧ r.layer = lay ∧ r.datatype = dt := by
  intro fuel
  induction fuel with
  | zero =>
    intro y rs hy0 h
    by_cases hy : y + width ≤ total_y
    · simp [draw_metal1_aux, hy] at h
    · simp only [draw_metal1_aux, hy, if_false, Option.some_inj] at h
      subst h
      intro r hr
      simp at hr
  | succ n ih =>
    intro y rs hy0 h
    by_cases hy : y + width ≤ total_y
    · simp only [draw_metal1_aux] at h
      rw [if_pos hy] at h
      cases hrec : draw_metal1_aux length_x width pitch total_y lay dt n (y + pitch) with
      | none => rw [hrec] at h; simp at h
      | some rs' =>
        rw [hrec] at h
        simp only [Option.map_some', Option.some_inj] at h
        subst h
        intro r hr
        rcases List.mem_cons.mp hr with hr | hr
        · subst hr
          exact ⟨⟨le_rfl, by simpa using hlx, le_rfl,
            by simpa using hy0, by simp; linarith, by simpa using hy⟩, rfl, rfl⟩
        · exact ih (y + pitch) rs' (by linarith) hrec r hr
    · simp only [draw_metal1_aux, hy, if_false, Option.some_inj] at h
      subst h
      intro r hr
      simp at hr

/-! ## Gap legality inside one column -/

theorem track_aux_chain (s : ℕ → ℚ) (spec : MetalGenSpec) (x_base : ℚ)
    (hs : ValidStream s) :
    ∀ (fuel : ℕ) (y : ℚ) (idx : ℕ) (rs : List Rect) (idx' : ℕ),
      _draw_one_track_aux s spec x_base fuel y idx = some (rs, idx') →
      (∀ r, rs.head? = some r → r.y0 = spec.origin.2 + y) ∧
      List.Chain'
        (fun a b => spec.min_t2t ≤ b.y0 - a.y1 ∧ b.y0 - a.y1 ≤ spec.max_t2t) rs := by
  intro fuel
  induction fuel with
  | zero =>
    intro y idx rs idx' h
    by_cases hy : y < spec.total_y
    · simp [_draw_one_track_aux, hy] at h
    · simp only [_draw_one_track_aux, hy, if_false] at h
      simp only [Option.some_inj, Prod.mk.injEq] at h
      obtain ⟨h1, _⟩ := h
      subst h1
      exact ⟨by intro r hr; simp at hr, List.chain'_nil⟩
  | succ n ih =>
    intro y idx rs idx' h
    by_cases hy : y < spec.total_y
    · simp only [_draw_one_track_aux] at h
      rw [if_pos hy] at h
      by_cases hbrk : min spec.max_length (spec.total_y - y) < spec.min_length
      · rw [if_pos hbrk] at h
        simp only [Option.some_inj, Prod.mk.injEq] at h
        obtain ⟨h1, _⟩ := h
        subst h1
        exact ⟨by intro r hr; simp at hr, List.chain'_nil⟩
      · rw [if_neg hbrk] at h
        set l := _rand_quantized spec.min_length
          (min spec.max_length (spec.total_y - y)) 0 (s idx) with hl
        by_cases hfull : spec.total_y ≤ y + l
        · rw [if_pos hfull] at h
          simp only [Option.some_inj, Prod.mk.injEq] at h
          obtain ⟨h1, _⟩ := h
          subst h1
          constructor
          · intro r hr
            simp only [List.head?_cons, Option.some_inj] at hr
            subst hr
            rfl
          · exact List.chain'_singleton _
        · rw [if_neg hfull] at h
          by_cases hgbrk : min spec.max_t2t (spec.total_y - (y + l)) < spec.min_t2t
          · rw [if_pos hgbrk] at h
            simp only [Option.some_inj, Prod.mk.injEq] at h
            obtain ⟨h1, _⟩ := h
            subst h1
            constructor
            · intro r hr
              simp only [List.head?_cons, Option.some_inj] at hr
              subst hr
              rfl
            · exact List.chain'_singleton _
          · rw [if_neg hgbrk] at h
            set t := _rand_quantized spec.min_t2t
              (min spec.max_t2t (spec.total_y - (y + l))) spec.t2t_grid
              (s (idx + 1)) with htdef
            have htge : spec.min_t2t ≤ t := by
              have := (rand_quantized_bounds spec.min_t2t
                (min spec.max_t2t (spec.total_y - (y + l))) spec.t2t_grid
                (s (idx + 1)) (hs (idx + 1)).1 (hs (idx + 1)).2).1
              rwa [min_eq_left (le_of_not_lt hgbrk)] at this
            have htle : t ≤ spec.max_t2t := by
              have := (rand_quantized_bounds spec.min_t2t
                (min spec.max_t2t (spec.total_y - (y + l))) spec.t2t_grid
                (s (idx + 1)) (hs (idx + 1)).1 (hs (idx + 1)).2).2
              rw [max_eq_right (le_of_not_lt hgbrk)] at this
              exact le_trans this (min_le_left _ _)
            cases haux : _draw_one_track_aux s spec x_base n (y + l + t) (idx + 2) with
            | none => rw [haux] at h; simp at h
            | some p =>
              rw [haux] at h
              obtain ⟨rs', idx2⟩ := p
              simp only [Option.map_some', Option.some_inj, Prod.mk.injEq] at h
              obtain ⟨h1, _⟩ := h
              subst h1
              obtain ⟨ihhead, ihchain⟩ := ih (y + l + t) (idx + 2) rs' idx2 haux
              constructor
              · intro r hr
                simp only [List.head?_cons, Option.some_inj] at hr
                subst hr
                rfl
              · apply List.Chain'.cons' ihchain
                intro b hb
                have hb0 : b.y0 = spec.origin.2 + (y + l + t) :=
                  ihhead b (by simpa using hb)
                constructor
                · simp only [hb0]
                  ring_nf
                  linarith
                · simp only [hb0]
                  ring_nf
                  linarith
    · simp only [_draw_one_track_aux, hy, if_false] at h
      simp only [Option.some_inj, Prod.mk.injEq] at h
      obtain ⟨h1, _⟩ := h
      subst h1
      exact ⟨by intro r hr; simp at hr, List.chain'_nil⟩

/-! ## Sorting machinery -/

theorem insertSorted_perm {α : Type} (key : α → ℚ) (x : α) (l : List α) :
    List.Perm (insertSorted key x l) (x :: l) := by
  induction l with
  | nil => simp [insertSorted]
  | cons y ys ih =>
    by_cases hc : key y ≤ key x
    · simp only [insertSorted, hc, if_true]
      exact (List.Perm.cons y ih).trans (List.Perm.swap x y ys)
    · simp [insertSorted, hc]

theorem insertSorted_sorted {α : Type} (key : α → ℚ) (x : α) (l : List α)
    (h : List.Pairwise (fun a b => key a ≤ key b) l) :
    List.Pairwise (fun a b => key a ≤ key b) (insertSorted key x l) := by
  induction l with
  | nil => simp [insertSorted]
  | cons y ys ih =>
    obtain ⟨hy, hys⟩ := List.pairwise_cons.mp h
    by_cases hc : key y ≤ key x
    · simp only [insertSorted, hc, if_true]
      apply List.pairwise_cons.mpr
      refine ⟨?_, ih hys⟩
      intro b hb
      have hb' : b ∈ x :: ys := (insertSorted_perm key x ys).mem_iff.mp hb
      rcases List.mem_cons.mp hb' with hb'' | hb''
      · subst hb''; exact hc
      · exact hy b hb''
    · push_neg at hc
      simp only [insertSorted, not_le.mpr hc, if_false]
      apply List.pairwise_cons.mpr
      refine ⟨?_, h⟩
      intro b hb
      rcases List.mem_cons.mp hb with hb' | hb'
      · subst hb'; exact le_of_lt hc
      · exact le_trans (le_of_lt hc) (hy b hb')

theorem sortAux_perm {α : Type} (key : α → ℚ) :
    ∀ (l acc : List α), List.Perm (sortAux key acc l) (acc ++ l) := by
  intro l
  induction l with
  | nil => intro acc; simp [sortAux]
  | cons x xs ih =>
    intro acc
    simp only [sortAux]
    have h1 : List.Perm (sortAux key (insertSorted key x acc) xs)
        (insertSorted key x acc ++ xs) := ih _
    have h2 : List.Perm (insertSorted key x acc ++ xs) ((x :: acc) ++ xs) :=
      (insertSorted_perm key x acc).append_right xs
    have h3 : List.Perm ((x :: acc) ++ xs) (acc ++ x :: xs) := by
      simp only [List.cons_append]
      exact List.perm_middle.symm
    exact (h1.trans h2).trans h3

theorem sortAux_sorted {α : Type} (key : α → ℚ) :
    ∀ (l acc : List α), List.Pairwise (fun a b => key a ≤ key b) acc →
      List.Pairwise (fun a b => key a ≤ key b) (sortAux key acc l) := by
  intro l
  induction l with
  | nil => intro acc h; simpa [sortAux] using h
  | cons x xs ih =>
    intro acc h
    simp only [sortAux]
    exact ih _ (insertSorted_sorted key x acc h)

theorem sortByKey_perm {α : Type} (key : α → ℚ) (l : List α) :
    List.Perm (sortByKey key l) l := by
  simpa [sortByKey] using sortAux_perm key l []

theorem sortByKey_sorted {α : Type} (key : α → ℚ) (l : List α) :
    List.Pairwise (fun a b => key a ≤ key b) (sortByKey key l) :=
  sortAux_sorted key l [] List.Pairwise.nil

/-! ## The greedy pitch sweep -/

theorem sweepAux_sublist {α : Type} (vp : ℚ) (key : α → ℚ) :
    ∀ (l : List α) (o : Option ℚ), List.Sublist (sweepAux vp key o l) l := by
  intro l
  induction l with
  | nil => intro o; cases o <;> simp [sweepAux]
  | cons p ps ih =>
    intro o
    cases o with
    | none =>
      simp only [sweepAux]
      exact (ih (some (key p))).cons₂ p
    | some lastv =>
      by_cases hc : vp ≤ key p - lastv
      · simp only [sweepAux, hc, if_true]
        exact (ih (some (key p))).cons₂ p
      · simp only [sweepAux, hc, if_false]
        exact (ih (some lastv)).cons p

theorem sweepAux_chain {α : Type} (vp : ℚ) (key : α → ℚ) :
    ∀ (l : List α), List.Pairwise (fun a b => key a ≤ key b) l →
      ∀ o, List.Chain' (fun a b => vp ≤ key b - key a) (sweepAux vp key o l) ∧
        (∀ lastv, o = some lastv → ∀ r, (sweepAux vp key o l).head? = some r →
          vp ≤ key r - lastv) := by
  intro l
  induction l with
  | nil =>
    intro _ o
    cases o <;> simp [sweepAux]
  | cons p ps ih =>
    intro hsort o
    obtain ⟨hp, hps⟩ := List.pairwise_cons.mp hsort
    cases o with
    | none =>
      simp only [sweepAux]
      constructor
      · apply List.Chain'.cons' (ih hps (some (key p))).1
        intro b hb
        exact (ih hps (some (key p))).2 (key p) rfl b (by simpa using hb)
      · intro lastv hco
        simp at hco
    | some lastv =>
      by_cases hc : vp ≤ key p - lastv
      · simp only [sweepAux, hc, if_true]
        constructor
        · apply List.Chain'.cons' (ih hps (some (key p))).1
          intro b hb
          exact (ih hps (some (key p))).2 (key p) rfl b (by simpa using hb)
        · intro lv hlv r hr
          injection hlv with hlv
          subst hlv
          simp only [List.head?_cons, Option.some_inj] at hr
          subst hr
          exact hc
      · simp only [sweepAux, hc, if_false]
        refine ⟨(ih hps (some lastv)).1, ?_⟩
        intro lv hlv r hr
        injection hlv with hlv
        subst hlv
        exact (ih hps (some lastv)).2 lastv rfl r hr

theorem sweepAux_keep_all {α : Type} (vp : ℚ) (key : α → ℚ) (hvp : vp ≤ 0) :
    ∀ (l : List α), List.Pairwise (fun a b => key a ≤ key b) l →
      sweepAux vp key none l = l ∧
      ∀ lastv, (∀ a ∈ l, lastv ≤ key a) → sweepAux vp key (some lastv) l = l := by
  intro l
  induction l with
  | nil => intro _; exact ⟨rfl, fun _ _ => rfl⟩
  | cons p ps ih =>
    intro hsort
    obtain ⟨hp, hps⟩ := List.pairwise_cons.mp hsort
    have hsome : ∀ lastv, (∀ a ∈ p :: ps, lastv ≤ key a) →
        sweepAux vp key (some lastv) (p :: ps) = p :: ps := by
      intro lastv hle
      have hc : vp ≤ key p - lastv := by
        have := hle p (List.mem_cons_self p ps)
        linarith
      simp only [sweepAux, hc, if_true]
      rw [(ih hps).2 (key p) hp]
    refine ⟨?_, hsome⟩
    simp only [sweepAux]
    rw [(ih hps).2 (key p) hp]

theorem chain'_to_pairwise_gap {α : Type} (vp : ℚ) (key : α → ℚ) (hvp : 0 ≤ vp) :
    ∀ (l : List α), List.Chain' (fun a b => vp ≤ key b - key a) l →
      List.Pairwise (fun a b => vp ≤ key b - key a) l := by
  intro l
  induction l with
  | nil => intro _; exact List.Pairwise.nil
  | cons p ps ih =>
    intro h
    obtain ⟨hhead, htail⟩ := List.chain'_cons'.mp h
    apply List.pairwise_cons.mpr
    refine ⟨?_, ih htail⟩
    cases ps with
    | nil => intro b hb; simp at hb
    | cons q rest =>
      intro b hb
      have hq : vp ≤ key q - key p := hhead q rfl
      rcases List.mem_cons.mp hb with hb' | hb'
      · subst hb'; exact hq
      · have hpw := ih htail
        have := (List.pairwise_cons.mp hpw).1 b hb'
        linarith

theorem pairwise_mem_cases {α : Type} {R : α → α → Prop} :
    ∀ (l : List α), List.Pairwise R l → ∀ a b, a ∈ l → b ∈ l →
      a = b ∨ R a b ∨ R b a := by
  intro l
  induction l with
  | nil => intro _ a b ha _; simp at ha
  | cons x xs ih =>
    intro h a b ha hb
    obtain ⟨hx, hxs⟩ := List.pairwise_cons.mp h
    rcases List.mem_cons.mp ha with ha' | ha' <;>
      rcases List.mem_cons.mp hb with hb' | hb'
    · subst ha'; subst hb'; exact Or.inl rfl
    · subst ha'; exact Or.inr (Or.inl (hx b hb'))
    · subst hb'; exact Or.inr (Or.inr (hx a ha'))
    · exact ih hxs a b ha' hb'

/-! ## The insertion-ordered grouping map -/

theorem groupInsert_join_perm {κ α : Type} [DecidableEq κ] (k : κ) (v : α) :
    ∀ (m : List (κ × List α)),
      List.Perm ((groupInsert k v m).map (fun kg => kg.2)).flatten
        (v :: (m.map (fun kg => kg.2)).flatten) := by
  intro m
  induction m with
  | nil => simp [groupInsert]
  | cons kg rest ih =>
    obtain ⟨k', g⟩ := kg
    by_cases hc : k' = k
    · simp only [groupInsert, hc, if_true, List.map_cons, List.flatten_cons]
      rw [List.append_assoc]
      simpa using List.perm_middle
    · simp only [groupInsert, hc, if_false, List.map_cons, List.flatten_cons]
      have h1 : List.Perm
          (g ++ ((groupInsert k v rest).map (fun kg => kg.2)).flatten)
          (g ++ (v :: (rest.map (fun kg => kg.2)).flatten)) := ih.append_left g
      exact h1.trans List.perm_middle

theorem groupByKey_join_perm {κ α : Type} [DecidableEq κ] (key : α → κ) :
    ∀ (l : List α) (m : List (κ × List α)),
      List.Perm ((groupByKey key m l).map (fun kg => kg.2)).flatten
        ((m.map (fun kg => kg.2)).flatten ++ l) := by
  intro l
  induction l with
  | nil => intro m; simp [groupByKey]
  | cons v vs ih =>
    intro m
    simp only [groupByKey]
    have h1 := ih (groupInsert (key v) v m)
    have h2 : List.Perm
        (((groupInsert (key v) v m).map (fun kg => kg.2)).flatten ++ vs)
        ((v :: (m.map (fun kg => kg.2)).flatten) ++ vs) :=
      (groupInsert_join_perm (key v) v m).append_right vs
    have h3 : List.Perm ((v :: (m.map (fun kg => kg.2)).flatten) ++ vs)
        ((m.map (fun kg => kg.2)).flatten ++ v :: vs) := by
      simp only [List.cons_append]
      exact List.perm_middle.symm
    exact (h1.trans h2).trans h3

theorem groupByKey_nil_join_perm {κ α : Type} [DecidableEq κ] (key : α → κ)
    (l : List α) :
    List.Perm ((groupByKey key [] l).map (fun kg => kg.2)).flatten l := by
  simpa using groupByKey_join_perm key l []

theorem groupInsert_entry_keys {κ α : Type} [DecidableEq κ] (k : κ) (v : α) :
    ∀ (m : List (κ × List α)) (e), e ∈ groupInsert k v m →
      e.1 ∈ m.map Prod.fst ∨ e.1 = k := by
  intro m
  induction m with
  | nil =>
    intro e he
    simp only [groupInsert, List.mem_singleton] at he
    subst he
    simp
  | cons kg rest ih =>
    obtain ⟨k', g⟩ := kg
    intro e he
    by_cases hc : k' = k
    · simp only [groupInsert, hc, if_true] at he
      rcases List.mem_cons.mp he with he' | he'
      · subst he'; simp [hc]
      · simp only [List.map_cons]
        exact Or.inl (List.mem_cons_of_mem _ (List.mem_map_of_mem Prod.fst he'))
    · simp only [groupInsert, hc, if_false] at he
      rcases List.mem_cons.mp he with he' | he'
      · subst he'; simp
      · rcases ih e he' with h1 | h1
        · simp only [List.map_cons]
          exact Or.inl (List.mem_cons_of_mem _ h1)
        · exact Or.inr h1

theorem groupInsert_nodup_keys {κ α : Type} [DecidableEq κ] (k : κ) (v : α) :
    ∀ (m : List (κ × List α)),
      List.Pairwise (fun a b => a.1 ≠ b.1) m →
      List.Pairwise (fun a b => a.1 ≠ b.1) (groupInsert k v m) := by
  intro m
  induction m with
  | nil => intro _; simp [groupInsert]
  | cons kg rest ih =>
    obtain ⟨k', g⟩ := kg
    intro h
    obtain ⟨hk', hrest⟩ := List.pairwise_cons.mp h
    by_cases hc : k' = k
    · simp only [groupInsert, hc, if_true]
      apply List.pairwise_cons.mpr
      refine ⟨?_, hrest⟩
      intro e he
      have := hk' e he
      simp only at this ⊢
      rw [← hc]
      exact this
    · simp only [groupInsert, hc, if_false]
      apply List.pairwise_cons.mpr
      refine ⟨?_, ih hrest⟩
      intro e he
      rcases groupInsert_entry_keys k v rest e he with h1 | h1
      · obtain ⟨y, hy, hy'⟩ := List.mem_map.mp h1
        have := hk' y hy
        simp only [← hy']
        exact this
      · rw [h1]
        exact hc

theorem groupByKey_nodup_keys {κ α : Type} [DecidableEq κ] (key : α → κ) :
    ∀ (l : List α) (m : List (κ × List α)),
      List.Pairwise (fun a b => a.1 ≠ b.1) m →
      List.Pairwise (fun a b => a.1 ≠ b.1) (groupByKey key m l) := by
  intro l
  induction l with
  | nil => intro m h; simpa [groupByKey] using h
  | cons v vs ih =>
    intro m h
    simp only [groupByKey]
    exact ih _ (groupInsert_nodup_keys (key v) v m h)

theorem groupInsert_good {κ α : Type} [DecidableEq κ] (key : α → κ) (v : α) :
    ∀ (m : List (κ × List α)), GoodMap key m →
      GoodMap key (groupInsert (key v) v m) := by
  intro m
  induction m with
  | nil =>
    intro _ e he x hx
    simp only [groupInsert, List.mem_singleton] at he
    subst he
    simp only [List.mem_singleton] at hx
    subst hx
    rfl
  | cons kg rest ih =>
    obtain ⟨k', g⟩ := kg
    intro hg e he x hx
    have hg_head : ∀ x ∈ g, key x = k' := fun x hx =>
      hg (k', g) (List.mem_cons_self _ _) x hx
    have hg_rest : GoodMap key rest := fun e he => hg e (List.mem_cons_of_mem _ he)
    by_cases hc : k' = key v
    · simp only [groupInsert, hc, if_true] at he
      rcases List.mem_cons.mp he with he' | he'
      · subst he'
        simp only at hx ⊢
        rcases List.mem_append.mp hx with hx' | hx'
        · rw [← hc]
          exact hg_head x hx'
        · simp only [List.mem_singleton] at hx'
          subst hx'
          rfl
      · exact hg_rest e he' x hx
    · simp only [groupInsert, hc, if_false] at he
      rcases List.mem_cons.mp he with he' | he'
      · subst he'
        exact hg_head x hx
      · exact ih hg_rest e he' x hx

theorem groupByKey_good {κ α : Type} [DecidableEq κ] (key : α → κ) :
    ∀ (l : List α) (m : List (κ × List α)), GoodMap key m →
      GoodMap key (groupByKey key m l) := by
  intro l
  induction l with
  | nil => intro m h; simpa [groupByKey] using h
  | cons v vs ih =>
    intro m h
    simp only [groupByKey]
    exact ih _ (groupInsert_good key v m h)

/-! ## Sampling lemmas -/

theorem sample_aux_mem (s : ℕ → ℚ) (vx vy d : ℚ) :
    ∀ (bbs : List BBox) (idx : ℕ) (c : Point),
      c ∈ (_sample_centers_aux s vx vy d bbs idx).1 →
      ∃ bb ∈ bbs, vx ≤ bb.x1 - bb.x0 ∧ vy ≤ bb.y1 - bb.y0 ∧
        c = ((bb.x0 + bb.x1) / 2, (bb.y0 + bb.y1) / 2) := by
  intro bbs
  induction bbs with
  | nil =>
    intro idx c hc
    simp [_sample_centers_aux] at hc
  | cons bb rest ih =>
    intro idx c hc
    by_cases hsz : vx ≤ bb.x1 - bb.x0 ∧ vy ≤ bb.y1 - bb.y0
    · simp only [_sample_centers_aux, hsz, if_true] at hc
      by_cases hu : s idx < d
      · simp only [hu, if_true] at hc
        rcases List.mem_cons.mp hc with hc' | hc'
        · exact ⟨bb, List.mem_cons_self _ _, hsz.1, hsz.2, hc'⟩
        · obtain ⟨bb', hbb', h1, h2, h3⟩ := ih (idx + 1) c hc'
          exact ⟨bb', List.mem_cons_of_mem _ hbb', h1, h2, h3⟩
      · simp only [hu, if_false] at hc
        obtain ⟨bb', hbb', h1, h2, h3⟩ := ih (idx + 1) c hc
        exact ⟨bb', List.mem_cons_of_mem _ hbb', h1, h2, h3⟩
    · simp only [_sample_centers_aux, hsz, if_false] at hc
      obtain ⟨bb', hbb', h1, h2, h3⟩ := ih idx c hc
      exact ⟨bb', List.mem_cons_of_mem _ hbb', h1, h2, h3⟩

theorem sample_aux_all (s : ℕ → ℚ) (vx vy d : ℚ) (hkeep : ∀ n, s n < d) :
    ∀ (bbs : List BBox) (idx : ℕ) (bb : BBox), bb ∈ bbs →
      vx ≤ bb.x1 - bb.x0 → vy ≤ bb.y1 - bb.y0 →
      ((bb.x0 + bb.x1) / 2, (bb.y0 + bb.y1) / 2) ∈
        (_sample_centers_aux s vx vy d bbs idx).1 := by
  intro bbs
  induction bbs with
  | nil => intro idx bb hbb; simp at hbb
  | cons bb' rest ih =>
    intro idx bb hbb h1 h2
    rcases List.mem_cons.mp hbb with hbb' | hbb'
    · subst hbb'
      have hsz : vx ≤ bb.x1 - bb.x0 ∧ vy ≤ bb.y1 - bb.y0 := ⟨h1, h2⟩
      simp only [_sample_centers_aux, hsz, if_true, hkeep idx]
      exact List.mem_cons_self _ _
    · by_cases hsz : vx ≤ bb'.x1 - bb'.x0 ∧ vy ≤ bb'.y1 - bb'.y0
      · simp only [_sample_centers_aux, hsz, if_true, hkeep idx]
        exact List.mem_cons_of_mem _ (ih (idx + 1) bb hbb' h1 h2)
      · simp only [_sample_centers_aux, hsz, if_false]
        exact ih idx bb hbb' h1 h2

theorem sample_aux_empty (s : ℕ → ℚ) (vx vy d : ℚ) (hs : ValidStream s)
    (hd : d ≤ 0) :
    ∀ (bbs : List BBox) (idx : ℕ), (_sample_centers_aux s vx vy d bbs idx).1 = [] := by
  intro bbs
  induction bbs with
  | nil => intro idx; simp [_sample_centers_aux]
  | cons bb rest ih =>
    intro idx
    by_cases hsz : vx ≤ bb.x1 - bb.x0 ∧ vy ≤ bb.y1 - bb.y0
    · have hu : ¬ s idx < d := by
        have := (hs idx).1
        intro hc; linarith
      simp only [_sample_centers_aux, hsz, if_true, hu, if_false]
      exact ih (idx + 1)
    · simp only [_sample_centers_aux, hsz, if_false]
      exact ih idx

/-! ## Membership through the grouping stages -/

theorem mem_of_group {κ α : Type} [DecidableEq κ] (key : α → κ) (l : List α)
    (kg : κ × List α) (x : α) (hkg : kg ∈ groupByKey key [] l) (hx : x ∈ kg.2) :
    x ∈ l := by
  have hperm := groupByKey_nil_join_perm key l
  apply hperm.mem_iff.mp
  exact List.mem_flatten.mpr ⟨kg.2, List.mem_map_of_mem (fun kg => kg.2) hkg, hx⟩

theorem group_of_mem {κ α : Type} [DecidableEq κ] (key : α → κ) (l : List α)
    (x : α) (hx : x ∈ l) :
    ∃ kg ∈ groupByKey key [] l, x ∈ kg.2 := by
  have hperm := groupByKey_nil_join_perm key l
  have hxm : x ∈ ((groupByKey key [] l).map (fun kg => kg.2)).flatten :=
    hperm.mem_iff.mpr hx
  obtain ⟨ll, hll, hxll⟩ := List.mem_flatten.mp hxm
  obtain ⟨kg, hkg, hkg'⟩ := List.mem_map.mp hll
  subst hkg'
  exact ⟨kg, hkg, hxll⟩

theorem stage_subset {κ : Type} [DecidableEq κ] (vp : ℚ) (gkey : Point → κ)
    (skey : Point → ℚ) (l : List Point) :
    ∀ c ∈ ((groupByKey gkey [] l).map
        (fun kg => sweepAux vp skey none (sortByKey skey kg.2))).flatten,
      c ∈ l := by
  intro c hc
  obtain ⟨ll, hll, hcll⟩ := List.mem_flatten.mp hc
  obtain ⟨kg, hkg, hkg'⟩ := List.mem_map.mp hll
  subst hkg'
  have h1 : c ∈ sortByKey skey kg.2 :=
    (sweepAux_sublist vp skey (sortByKey skey kg.2) none).subset hcll
  have h2 : c ∈ kg.2 := (sortByKey_perm skey kg.2).mem_iff.mp h1
  exact mem_of_group gkey l kg c hkg h2

theorem stage_keeps {κ : Type} [DecidableEq κ] (vp : ℚ) (gkey : Point → κ)
    (skey : Point → ℚ) (l : List Point) (hvp : vp ≤ 0) :
    ∀ c ∈ l, c ∈ ((groupByKey gkey [] l).map
      (fun kg => sweepAux vp skey none (sortByKey skey kg.2))).flatten := by
  intro c hc
  obtain ⟨kg, hkg, hckg⟩ := group_of_mem gkey l c hc
  have hsorted := sortByKey_sorted skey kg.2
  have heq := (sweepAux_keep_all vp skey hvp (sortByKey skey kg.2) hsorted).1
  have hcs : c ∈ sortByKey skey kg.2 := (sortByKey_perm skey kg.2).mem_iff.mpr hckg
  rw [← heq] at hcs
  exact List.mem_flatten.mpr
    ⟨_, List.mem_map_of_mem (fun kg => sweepAux vp skey none (sortByKey skey kg.2)) hkg, hcs⟩

theorem stage_pairwise {κ : Type} [DecidableEq κ] (vp : ℚ) (gkey : Point → κ)
    (skey : Point → ℚ) (l : List Point) :
    ∀ p q,
      p ∈ ((groupByKey gkey [] l).map
        (fun kg => sweepAux vp skey none (sortByKey skey kg.2))).flatten →
      q ∈ ((groupByKey gkey [] l).map
        (fun kg => sweepAux vp skey none (sortByKey skey kg.2))).flatten →
      gkey p = gkey q → p = q ∨ vp ≤ |skey q - skey p| := by
  intro p q hp hq hk
  obtain ⟨llp, hllp, hpllp⟩ := List.mem_flatten.mp hp
  obtain ⟨kgp, hkgp, hkgp'⟩ := List.mem_map.mp hllp
  subst hkgp'
  obtain ⟨llq, hllq, hqllq⟩ := List.mem_flatten.mp hq
  obtain ⟨kgq, hkgq, hkgq'⟩ := List.mem_map.mp hllq
  subst hkgq'
  have hpg : p ∈ kgp.2 :=
    (sortByKey_perm skey kgp.2).mem_iff.mp
      ((sweepAux_sublist vp skey (sortByKey skey kgp.2) none).subset hpllp)
  have hqg : q ∈ kgq.2 :=
    (sortByKey_perm skey kgq.2).mem_iff.mp
      ((sweepAux_sublist vp skey (sortByKey skey kgq.2) none).subset hqllq)
  have hgood : GoodMap gkey (groupByKey gkey [] l) :=
    groupByKey_good gkey l [] (by intro e he _ _; simp at he)
  have hkeyp : gkey p = kgp.1 := hgood kgp hkgp p hpg
  have hkeyq : gkey q = kgq.1 := hgood kgq hkgq q hqg
  have hnodup : List.Pairwise (fun a b => a.1 ≠ b.1) (groupByKey gkey [] l) :=
    groupByKey_nodup_keys gkey l [] List.Pairwise.nil
  have heq1 : kgp.1 = kgq.1 := by rw [← hkeyp, ← hkeyq, hk]
  have hkgeq : kgp = kgq := by
    rcases pairwise_mem_cases _ hnodup kgp kgq hkgp hkgq with h | h | h
    · exact h
    · exact absurd heq1 h
    · exact absurd heq1.symm h
  subst hkgeq
  by_cases hvp : 0 ≤ vp
  · have hchain := (sweepAux_chain vp skey (sortByKey skey kgp.2)
      (sortByKey_sorted skey kgp.2) none).1
    have hpw := chain'_to_pairwise_gap vp skey hvp _ hchain
    rcases pairwise_mem_cases _ hpw p q hpllp hqllq with h | h | h
    · exact Or.inl h
    · exact Or.inr (le_trans h (le_abs_self _))
    · refine Or.inr (le_trans h ?_)
      rw [abs_sub_comm]
      exact le_abs_self _
  · push_neg at hvp
    exact Or.inr (le_trans (le_of_lt hvp) (abs_nonneg _))

/-! ## Structure of `_pitch_clean` -/

theorem pitch_clean_eq (centers : List Point) (vpx vpy : ℚ)
    (pm1 pm2 : List Rect) (h : ¬ centers = []) :
    _pitch_clean centers vpx vpy pm1 pm2 =
      ((groupByKey (fun c : Point => nearest_idx c.2 (y_tracks_of pm1)) []
        (((groupByKey (fun c : Point => nearest_idx c.1 (x_tracks_of pm2)) [] centers).map
          (fun kg => sweepAux vpy (fun c => c.2) none
            (sortByKey (fun c => c.2) kg.2))).flatten)).map
        (fun kg => sweepAux vpx (fun c => c.1) none
          (sortByKey (fun c => c.1) kg.2))).flatten := by
  simp only [_pitch_clean]
  rw [if_neg h]

theorem pitch_clean_subset (centers : List Point) (vpx vpy : ℚ)
    (pm1 pm2 : List Rect) :
    ∀ c ∈ _pitch_clean centers vpx vpy pm1 pm2, c ∈ centers := by
  intro c hc
  by_cases hemp : centers = []
  · subst hemp
    simp [_pitch_clean] at hc
  · rw [pitch_clean_eq centers vpx vpy pm1 pm2 hemp] at hc
    have h1 := stage_subset vpx (fun c : Point => nearest_idx c.2 (y_tracks_of pm1))
      (fun c => c.1) _ c hc
    exact stage_subset vpy (fun c : Point => nearest_idx c.1 (x_tracks_of pm2))
      (fun c => c.2) centers c h1

theorem pitch_clean_keeps (centers : List Point) (vpx vpy : ℚ)
    (pm1 pm2 : List Rect) (hvx : vpx ≤ 0) (hvy : vpy ≤ 0) :
    ∀ c ∈ centers, c ∈ _pitch_clean centers vpx vpy pm1 pm2 := by
  intro c hc
  have hemp : ¬ centers = [] := by
    intro h
    subst h
    simp at hc
  rw [pitch_clean_eq centers vpx vpy pm1 pm2 hemp]
  exact stage_keeps vpx (fun c : Point => nearest_idx c.2 (y_tracks_of pm1))
    (fun c => c.1) _ hvx c
    (stage_keeps vpy (fun c : Point => nearest_idx c.1 (x_tracks_of pm2))
      (fun c => c.2) centers hvy c hc)

/-! ## Via candidate decomposition -/

theorem rect_from_bbox_some (bb b : BBox) (h : _rect_from_bbox bb = some b) :
    b = bb ∧ bb.x0 < bb.x1 ∧ bb.y0 < bb.y1 := by
  unfold _rect_from_bbox at h
  by_cases hc : bb.x1 ≤ bb.x0 ∨ bb.y1 ≤ bb.y0
  · rw [if_pos hc] at h
    simp at h
  · rw [if_neg hc] at h
    push_neg at hc
    simp only [Option.some_inj] at h
    exact ⟨h.symm, hc.1, hc.2⟩

theorem mem_assist_horizontal (polys : List Rect) (ex : ℚ) (b : BBox)
    (hb : b ∈ _assist_polys_horizontal polys ex) :
    ∃ p ∈ polys,
      b = ⟨(_bbox p).x0 + ex, (_bbox p).y0, (_bbox p).x1 - ex, (_bbox p).y1⟩ := by
  unfold _assist_polys_horizontal at hb
  obtain ⟨p, hp, hp'⟩ := List.mem_filterMap.mp hb
  exact ⟨p, hp, (rect_from_bbox_some _ _ hp').1⟩

theorem mem_assist_vertical (polys : List Rect) (ey : ℚ) (b : BBox)
    (hb : b ∈ _assist_polys_vertical polys ey) :
    ∃ p ∈ polys,
      b = ⟨(_bbox p).x0, (_bbox p).y0 + ey, (_bbox p).x1, (_bbox p).y1 - ey⟩ := by
  unfold _assist_polys_vertical at hb
  obtain ⟨p, hp, hp'⟩ := List.mem_filterMap.mp hb
  exact ⟨p, hp, (rect_from_bbox_some _ _ hp').1⟩

theorem mem_rectIntersections (as bs : List BBox) (bb : BBox)
    (h : bb ∈ rectIntersections as bs) :
    ∃ a ∈ as, ∃ b ∈ bs, interBBox a b = some bb := by
  unfold rectIntersections at h
  obtain ⟨ll, hll, hbb⟩ := List.mem_flatten.mp h
  obtain ⟨a, ha, ha'⟩ := List.mem_map.mp hll
  subst ha'
  obtain ⟨b, hb, hb'⟩ := List.mem_filterMap.mp hbb
  exact ⟨a, ha, b, hb, hb'⟩

theorem interBBox_some (a b bb : BBox) (h : interBBox a b = some bb) :
    bb.x0 = max a.x0 b.x0 ∧ bb.y0 = max a.y0 b.y0 ∧
    bb.x1 = min a.x1 b.x1 ∧ bb.y1 = min a.y1 b.y1 ∧
    bb.x0 < bb.x1 ∧ bb.y0 < bb.y1 := by
  simp only [interBBox] at h
  split_ifs at h with hc
  · simp only [Option.some_inj] at h
    subst h
    exact ⟨rfl, rfl, rfl, rfl, hc.1, hc.2⟩

theorem calc_candidates_mem (cell : List Rect) (m1L m2L : ℤ) (ex ey : ℚ)
    (bb : BBox) (h : bb ∈ _calc_candidates cell m1L m2L ex ey) :
    ∃ a ∈ _assist_polys_horizontal (_get_layer_polys cell m1L) ex,
    ∃ b ∈ _assist_polys_vertical (_get_layer_polys cell m2L) ey,
      interBBox a b = some bb := by
  simp only [_calc_candidates, calc_candidates_from_polys] at h
  split_ifs at h with hc
  · simp at h
  · exact mem_rectIntersections _ _ bb h

/-! ## Containment of the emitted vias -/

theorem vias_in_box (cell : List Rect) (vspec : ViaGenSpec) (m1L m2L : ℤ)
    (s : ℕ → ℚ) (bx0 by0 bx1 by1 : ℚ)
    (hm2 : ∀ r ∈ _get_layer_polys cell m2L, rect_in_box r bx0 by0 bx1 by1)
    (hvx : 0 < vspec.via_x) (hvy : 0 < vspec.via_y)
    (hey : 0 ≤ vspec.enclosure_y) :
    ∀ r ∈ generate_vias_from_metals cell vspec m1L m2L s,
      rect_in_box r bx0 by0 bx1 by1 := by
  intro r hr
  simp only [generate_vias_from_metals] at hr
  obtain ⟨c, hcf, hcr⟩ := List.mem_map.mp hr
  subst hcr
  have hcc := pitch_clean_subset _ _ _ _ _ c hcf
  obtain ⟨bb, hbb, hszx, hszy, hcbb⟩ := sample_aux_mem s vspec.via_x
    vspec.via_y vspec.density _ 0 c hcc
  obtain ⟨a, ha, b, hb, hinter⟩ := calc_candidates_mem cell m1L m2L _ _ bb hbb
  obtain ⟨p, hp, hbdef⟩ := mem_assist_vertical _ _ b hb
  obtain ⟨hpb0, hpb01, hpb1, hpb2, hpb23, hpb3⟩ := hm2 p hp
  obtain ⟨hib1, hib2, hib3, hib4, hib5, hib6⟩ := interBBox_some a b bb hinter
  have hb_x0 : b.x0 = min p.x0 p.x1 := by rw [hbdef]; simp [_bbox]
  have hb_y0 : b.y0 = min p.y0 p.y1 + vspec.enclosure_y := by rw [hbdef]; simp [_bbox]
  have hb_x1 : b.x1 = max p.x0 p.x1 := by rw [hbdef]; simp [_bbox]
  have hb_y1 : b.y1 = max p.y0 p.y1 - vspec.enclosure_y := by rw [hbdef]; simp [_bbox]
  have hmin_x : min p.x0 p.x1 = p.x0 := min_eq_left (le_of_lt hpb01)
  have hmax_x : max p.x0 p.x1 = p.x1 := max_eq_right (le_of_lt hpb01)
  have hmin_y : min p.y0 p.y1 = p.y0 := min_eq_left (le_of_lt hpb23)
  have hmax_y : max p.y0 p.y1 = p.y1 := max_eq_right (le_of_lt hpb23)
  have hbbx0 : bx0 ≤ bb.x0 := by
    rw [hib1]
    refine le_trans ?_ (le_max_right _ _)
    rw [hb_x0, hmin_x]
    exact hpb0
  have hbbx1 : bb.x1 ≤ bx1 := by
    rw [hib3]
    refine le_trans (min_le_right _ _) ?_
    rw [hb_x1, hmax_x]
    exact hpb1
  have hbby0 : by0 ≤ bb.y0 := by
    rw [hib2]
    refine le_trans ?_ (le_max_right _ _)
    rw [hb_y0, hmin_y]
    linarith
  have hbby1 : bb.y1 ≤ by1 := by
    rw [hib4]
    refine le_trans (min_le_right _ _) ?_
    rw [hb_y1, hmax_y]
    linarith
  subst hcbb
  simp only [via_rect_at, rect_in_box]
  refine ⟨?_, ?_, ?_, ?_, ?_, ?_⟩ <;> dsimp only <;> linarith

/-! ## Concrete evaluation support -/

theorem rat_floor_eq (q : ℚ) (n : ℤ) (h1 : (n : ℚ) ≤ q) (h2 : q < n + 1) :
    q.floor = n := by
  have h : q.floor = ⌊q⌋ := (Rat.floor_def' q).trans Rat.floor_def.symm
  rw [h]
  apply Int.floor_eq_iff.mpr
  constructor
  · exact h1
  · push_cast
    exact h2

theorem halfStream_valid : ValidStream (fun _ => (1 : ℚ) / 2) := by
  intro n
  constructor
  · norm_num
  · norm_num

theorem thirdStream_valid : ValidStream (fun _ => (1 : ℚ) / 3) := by
  intro n
  constructor
  · norm_num
  · norm_num

theorem specW_inner_fuel : inner_fuel specW = 3 := by
  have h : (specW.total_y / specW.min_length) = 1 := by norm_num [specW]
  unfold inner_fuel
  rw [h, rat_floor_eq 1 1 (by norm_num) (by norm_num)]
  rfl

theorem specW_outer_fuel : outer_fuel specW = 3 := by
  have h : (specW.total_x / specW.track_pitch) = 3 / 2 := by norm_num [specW]
  unfold outer_fuel
  rw [h, rat_floor_eq (3 / 2) 1 (by norm_num) (by norm_num)]
  rfl

set_option maxHeartbeats 1600000 in
theorem specW_tracks : draw_metal_cell_vertical specW (fun _ => 1 / 2) = some tracksW := by
  rw [draw_metal_cell_vertical, specW_outer_fuel]
  norm_num [-reduceIte, draw_metal_cols_aux, _draw_one_track_vertical, specW_inner_fuel,
    _draw_one_track_aux, _rand_quantized, uniformDraw, tracksW, min_def, max_def,
    show specW.total_y = 1 from rfl, show specW.min_length = 1 from rfl,
    show specW.max_length = 1 from rfl, show specW.wire_cd = 1 from rfl,
    show specW.total_x = 3 from rfl, show specW.track_pitch = 2 from rfl,
    show specW.origin = (0, 0) from rfl, show specW.layer = 111 from rfl,
    show specW.datatype = 0 from rfl]

theorem strapsW_eval : draw_metal1 3 1 2 specW.total_y 110 0 = some strapsW := by
  have hf : strap_fuel 2 specW.total_y = 2 := by
    have h : (specW.total_y / 2) = 1 / 2 := by norm_num [specW]
    unfold strap_fuel
    rw [h, rat_floor_eq (1 / 2) 0 (by norm_num) (by norm_num)]
    rfl
  rw [draw_metal1, hf]
  norm_num [-reduceIte, draw_metal1_aux, strapsW, show specW.total_y = 1 from rfl]

set_option maxHeartbeats 3200000 in
theorem viasW_eval : generate_vias_from_metals cellW vspecW 110 111 (fun _ => 1 / 2) =
    [⟨0, 0, 1, 1, 112, 0⟩, ⟨2, 0, 3, 1, 112, 0⟩] := by
  norm_num [-reduceIte, generate_vias_from_metals, _calc_candidates,
    calc_candidates_from_polys, _get_layer_polys, _assist_polys_horizontal,
    _assist_polys_vertical, _rect_from_bbox, _bbox, interBBox, rectIntersections,
    _sample_centers_from_bboxes, _sample_centers_aux, _pitch_clean, x_tracks_of,
    y_tracks_of, _unique_positions, uniqAux, sortByKey, sortAux, insertSorted,
    groupByKey, groupInsert, sweepAux, nearestAux, nearest_idx, via_rect_at,
    cellW, tracksW, strapsW, vspecW, min_def, max_def, List.filter, List.filterMap,
    List.cons_ne_nil]

set_option maxHeartbeats 1600000 in
theorem candW_eval : _calc_candidates cellW 110 111 0 0 =
    [⟨0, 0, 1, 1⟩, ⟨2, 0, 3, 1⟩] := by
  norm_num [-reduceIte, _calc_candidates, calc_candidates_from_polys,
    _get_layer_polys, _assist_polys_horizontal, _assist_polys_vertical,
    _rect_from_bbox, _bbox, interBBox, rectIntersections, cellW, tracksW,
    strapsW, min_def, max_def, List.filter, List.filterMap, List.cons_ne_nil]

theorem specC6_inner_fuel : inner_fuel specC6 = 5 := by
  have h : (specC6.total_y / specC6.min_length) = 3 := by norm_num [specC6]
  unfold inner_fuel
  rw [h, rat_floor_eq 3 3 (by norm_num) (by norm_num)]
  rfl

set_option maxHeartbeats 1600000 in
theorem specC6_track_eval : _draw_one_track_vertical (fun _ => 1 / 2) specC6 0 0 =
    some ([⟨0, 0, 1, 1, 111, 0⟩, ⟨0, 2, 1, 3, 111, 0⟩], 3) := by
  rw [_draw_one_track_vertical, specC6_inner_fuel]
  norm_num [-reduceIte, _draw_one_track_aux, _rand_quantized, uniformDraw,
    min_def, max_def,
    show specC6.total_y = 3 from rfl, show specC6.min_length = 1 from rfl,
    show specC6.max_length = 1 from rfl, show specC6.wire_cd = 1 from rfl,
    show specC6.min_t2t = 1 from rfl, show specC6.max_t2t = 1 from rfl,
    show specC6.t2t_grid = 0 from rfl,
    show specC6.origin = (0, 0) from rfl, show specC6.layer = 111 from rfl,
    show specC6.datatype = 0 from rfl]

set_option maxHeartbeats 800000 in
theorem pc_single_eval : _pitch_clean [((0 : ℚ), (0 : ℚ))] 1 1 [] [] =
    [((0 : ℚ), (0 : ℚ))] := by
  norm_num [-reduceIte, _pitch_clean, x_tracks_of, y_tracks_of, _unique_positions,
    uniqAux, sortByKey, sortAux, insertSorted, groupByKey, groupInsert, sweepAux,
    nearestAux, nearest_idx, List.cons_ne_nil, min_def, max_def, _bbox]

/-! ## Claim theorems -/

/-- C1: for every valid MetalGenSpec and ViaGenSpec with fixed seeds, two
independent runs of the pipeline (draw_metal_cell_vertical, then draw_metal1,
then generate_vias_from_metals) on identical inputs produce identical layouts:
the same rectangles with the same coordinates, layer and datatype tags, in the
same order.  The embedding is a pure function of the specs and the two
seed-derived random streams, so equal inputs give equal outputs. -/
theorem C1_pipeline_deterministic (a b : PipelineInput)
    (hspec : a.mspec = b.mspec) (hlx : a.m1_length_x = b.m1_length_x)
    (hw : a.m1_width = b.m1_width) (hpit : a.m1_pitch = b.m1_pitch)
    (hm1 : a.m1_layer = b.m1_layer) (hm2 : a.m2_layer = b.m2_layer)
    (hv : a.vspec = b.vspec) (hms : a.metal_stream = b.metal_stream)
    (hvs : a.via_stream = b.via_stream) :
    fullPipeline a = fullPipeline b := by
  obtain ⟨am, alx, aw, ap, am1, am2, av, ams, avs⟩ := a
  obtain ⟨bm, blx, bw, bp, bm1, bm2, bv, bms, bvs⟩ := b
  simp only at hspec hlx hw hpit hm1 hm2 hv hms hvs
  subst hspec
  subst hlx
  subst hw
  subst hpit
  subst hm1
  subst hm2
  subst hv
  subst hms
  subst hvs
  rfl

theorem C1_pipeline_deterministic_witness :
    fullPipeline pipeInputW = fullPipeline pipeInputW :=
  C1_pipeline_deterministic pipeInputW pipeInputW rfl rfl rfl rfl rfl rfl rfl rfl rfl

/-- C2 (amended): the generation entry points perform no validation at all.
A malformed spec with `max_length < min_length` is accepted without any
configuration error and silently produces empty geometry: every column breaks
out of its loop before emitting a rectangle. -/
theorem C2_no_validation_silent_empty (spec : MetalGenSpec) (s : ℕ → ℚ)
    (h : spec.max_length < spec.min_length) (hp : 0 < spec.track_pitch)
    (hw : 0 ≤ spec.wire_cd) :
    draw_metal_cell_vertical spec s = some [] := by
  have hin : ∀ x idx, _draw_one_track_vertical s spec x idx = some ([], idx) := by
    intro x idx
    rw [_draw_one_track_vertical]
    show _draw_one_track_aux s spec x
      (((spec.total_y / spec.min_length).floor.toNat + 1) + 1) 0 idx = some ([], idx)
    by_cases hy : (0 : ℚ) < spec.total_y
    · simp only [_draw_one_track_aux]
      rw [if_pos hy]
      have hbrk : min spec.max_length (spec.total_y - 0) < spec.min_length :=
        lt_of_le_of_lt (min_le_left _ _) h
      rw [if_pos hbrk]
    · simp only [_draw_one_track_aux]
      rw [if_neg hy]
  have hout : ∀ (fuel : ℕ) (x : ℚ) (idx : ℕ),
      spec.total_x - x < (fuel : ℚ) * spec.track_pitch →
      draw_metal_cols_aux s spec fuel x idx = some ([], idx) := by
    intro fuel
    induction fuel with
    | zero =>
      intro x idx hfx
      have hx : ¬ x + spec.wire_cd ≤ spec.total_x := by
        simp only [Nat.cast_zero, zero_mul] at hfx
        intro hc
        linarith
      simp [draw_metal_cols_aux, hx]
    | succ n ih =>
      intro x idx hfx
      by_cases hx : x + spec.wire_cd ≤ spec.total_x
      · simp only [draw_metal_cols_aux]
        rw [if_pos hx, hin x idx]
        simp only [Option.some_bind]
        have hbound : spec.total_x - (x + spec.track_pitch) <
            (n : ℚ) * spec.track_pitch := by
          have hc : ((n + 1 : ℕ) : ℚ) = (n : ℚ) + 1 := by push_cast; ring
          rw [hc] at hfx
          nlinarith
        rw [ih (x + spec.track_pitch) idx hbound]
        simp
      · simp [draw_metal_cols_aux, hx]
  have hb : spec.total_x - 0 < ((outer_fuel spec : ℕ) : ℚ) * spec.track_pitch := by
    unfold outer_fuel
    have := lt_fuel_mul spec.total_x spec.track_pitch hp
    push_cast at this ⊢
    linarith
  rw [draw_metal_cell_vertical, hout (outer_fuel spec) 0 0 hb]
  rfl

theorem C2_no_validation_witness :
    draw_metal_cell_vertical C2_bad_spec2 (fun _ => 1 / 3) = some [] :=
  C2_no_validation_silent_empty C2_bad_spec2 (fun _ => 1 / 3)
    (by norm_num [C2_bad_spec2]) (by norm_num [C2_bad_spec2])
    (by norm_num [C2_bad_spec2])

/-- C2 (counterexample): the claim that the entry points validate eagerly and
fail with a configuration error is false at this concrete input: the spec has
`max_length = 1 < 2 = min_length`, yet `draw_metal_cell_vertical` returns
normally and silently emits empty geometry instead of failing. -/
theorem C2_counterexample :
    C2_bad_spec.max_length < C2_bad_spec.min_length ∧
    draw_metal_cell_vertical C2_bad_spec (fun _ => 1 / 2) = some [] := by
  constructor
  · norm_num [C2_bad_spec]
  · have hof : outer_fuel C2_bad_spec = 7 := by
      have h : (C2_bad_spec.total_x / C2_bad_spec.track_pitch) = 5 := by
        norm_num [C2_bad_spec]
      unfold outer_fuel
      rw [h, rat_floor_eq 5 5 (by norm_num) (by norm_num)]
      rfl
    have hif : inner_fuel C2_bad_spec = 4 := by
      have h : (C2_bad_spec.total_y / C2_bad_spec.min_length) = 5 / 2 := by
        norm_num [C2_bad_spec]
      unfold inner_fuel
      rw [h, rat_floor_eq (5 / 2) 2 (by norm_num) (by norm_num)]
      rfl
    rw [draw_metal_cell_vertical, hof]
    norm_num [-reduceIte, draw_metal_cols_aux, _draw_one_track_vertical, hif,
      _draw_one_track_aux, min_def, max_def,
      show C2_bad_spec.total_y = 5 from rfl, show C2_bad_spec.min_length = 2 from rfl,
      show C2_bad_spec.max_length = 1 from rfl, show C2_bad_spec.wire_cd = 1 from rfl,
      show C2_bad_spec.total_x = 5 from rfl, show C2_bad_spec.track_pitch = 1 from rfl]

/-- C3: among the final surviving via centers that share the same nearest
x-track index, any two are either equal or at vertical distance at least
`via_pitch_y`; and grouped by nearest y-track index (the grouping used for
row cleaning), any two are either equal or at horizontal distance at least
`via_pitch_x`.  In particular consecutive centers in ascending order within a
group are at least one pitch apart. -/
theorem C3_pitch_enforcement (centers : List Point) (vpx vpy : ℚ)
    (pm1 pm2 : List Rect) :
    ∀ p ∈ _pitch_clean centers vpx vpy pm1 pm2,
    ∀ q ∈ _pitch_clean centers vpx vpy pm1 pm2,
      (nearest_idx p.1 (x_tracks_of pm2) = nearest_idx q.1 (x_tracks_of pm2) →
        p = q ∨ vpy ≤ |q.2 - p.2|) ∧
      (nearest_idx p.2 (y_tracks_of pm1) = nearest_idx q.2 (y_tracks_of pm1) →
        p = q ∨ vpx ≤ |q.1 - p.1|) := by
  intro p hp q hq
  have hemp : ¬ centers = [] := by
    intro hc
    subst hc
    simp [_pitch_clean] at hp
  rw [pitch_clean_eq centers vpx vpy pm1 pm2 hemp] at hp hq
  constructor
  · intro hk
    have hp' := stage_subset vpx (fun c : Point => nearest_idx c.2 (y_tracks_of pm1))
      (fun c => c.1) _ p hp
    have hq' := stage_subset vpx (fun c : Point => nearest_idx c.2 (y_tracks_of pm1))
      (fun c => c.1) _ q hq
    exact stage_pairwise vpy (fun c : Point => nearest_idx c.1 (x_tracks_of pm2))
      (fun c => c.2) centers p q hp' hq' hk
  · intro hk
    exact stage_pairwise vpx (fun c : Point => nearest_idx c.2 (y_tracks_of pm1))
      (fun c => c.1) _ p q hp hq hk

theorem C3_pitch_enforcement_witness :
    ((0 : ℚ), (0 : ℚ)) = ((0 : ℚ), (0 : ℚ)) ∨ (1 : ℚ) ≤ |(0 : ℚ) - (0 : ℚ)| := by
  have hmem : ((0 : ℚ), (0 : ℚ)) ∈ _pitch_clean [((0 : ℚ), (0 : ℚ))] 1 1 [] [] := by
    rw [pc_single_eval]
    exact List.mem_cons_self _ _
  exact (C3_pitch_enforcement [((0 : ℚ), (0 : ℚ))] 1 1 [] []
    ((0 : ℚ), (0 : ℚ)) hmem ((0 : ℚ), (0 : ℚ)) hmem).1 rfl

/-- C5: the quantized range sampler never fails and always returns a value in
`[min(lo,hi), max(lo,hi)]`; when `grid ≤ 0` it is the plain uniform draw,
which stays strictly below the upper end of a nondegenerate range. -/
theorem C5_rand_quantized_range (lo hi grid u : ℚ) (h0 : 0 ≤ u) (h1 : u < 1) :
    min lo hi ≤ _rand_quantized lo hi grid u ∧
    _rand_quantized lo hi grid u ≤ max lo hi ∧
    (grid ≤ 0 → min lo hi < max lo hi → _rand_quantized lo hi grid u < max lo hi) := by
  refine ⟨(rand_quantized_bounds lo hi grid u h0 h1).1,
    (rand_quantized_bounds lo hi grid u h0 h1).2, ?_⟩
  intro hg hlt
  rw [rand_quantized_grid_nonpos lo hi grid u hg]
  exact uniformDraw_lt _ _ _ hlt h1

theorem C5_rand_quantized_range_witness :
    min (1 : ℚ) 5 ≤ _rand_quantized 1 5 2 (1 / 2) ∧
    _rand_quantized 1 5 2 (1 / 2) ≤ max (1 : ℚ) 5 ∧
    ((2 : ℚ) ≤ 0 → min (1 : ℚ) 5 < max (1 : ℚ) 5 →
      _rand_quantized 1 5 2 (1 / 2) < max (1 : ℚ) 5) :=
  C5_rand_quantized_range 1 5 2 (1 / 2) (by norm_num) (by norm_num)

/-- C6: in every column produced by the track generator, the vertical gap
between any two consecutive emitted segments lies within
`[min_t2t, max_t2t]` — the sampled gap is clamped into `[min_t2t, t_hi]`
with `t_hi ≤ max_t2t`, so the bound holds exactly, not only up to
quantization tolerance. -/
theorem C6_gap_legality (spec : MetalGenSpec) (s : ℕ → ℚ) (hs : ValidStream s)
    (h1 : 0 < spec.min_t2t) (h2 : spec.min_t2t ≤ spec.max_t2t)
    (x_base : ℚ) (idx : ℕ) (rs : List Rect) (idx' : ℕ)
    (h : _draw_one_track_vertical s spec x_base idx = some (rs, idx')) :
    List.Chain'
      (fun a b => spec.min_t2t ≤ b.y0 - a.y1 ∧ b.y0 - a.y1 ≤ spec.max_t2t) rs :=
  (track_aux_chain s spec x_base hs (inner_fuel spec) 0 idx rs idx' h).2

theorem C6_gap_legality_witness :
    List.Chain'
      (fun a b : Rect => specC6.min_t2t ≤ b.y0 - a.y1 ∧ b.y0 - a.y1 ≤ specC6.max_t2t)
      [⟨0, 0, 1, 1, 111, 0⟩, ⟨0, 2, 1, 3, 111, 0⟩] :=
  C6_gap_legality specC6 (fun _ => 1 / 2) halfStream_valid
    (by norm_num [specC6]) (by norm_num [specC6]) 0 0 _ 3 specC6_track_eval

/-- C7: an m1 rectangle whose horizontal shrink by `enclosure_x` collapses or
inverts it (`x1 - ex ≤ x0 + ex`) is dropped from the horizontal assist set,
and symmetrically for an m2 rectangle under the vertical shrink; consequently
such a rectangle contributes zero via candidates — removing it from the layer
leaves the assist sets and the candidate list unchanged. -/
theorem C7_collapsed_rect_discarded (ex ey : ℚ) (p q : Rect)
    (l1 l2 l3 l4 pm1 pm2 : List Rect)
    (hp : (_bbox p).x1 - ex ≤ (_bbox p).x0 + ex)
    (hq : (_bbox q).y1 - ey ≤ (_bbox q).y0 + ey) :
    _assist_polys_horizontal (l1 ++ p :: l2) ex =
      _assist_polys_horizontal (l1 ++ l2) ex ∧
    _assist_polys_vertical (l3 ++ q :: l4) ey =
      _assist_polys_vertical (l3 ++ l4) ey ∧
    calc_candidates_from_polys (l1 ++ p :: l2) pm2 ex ey =
      calc_candidates_from_polys (l1 ++ l2) pm2 ex ey ∧
    calc_candidates_from_polys pm1 (l3 ++ q :: l4) ex ey =
      calc_candidates_from_polys pm1 (l3 ++ l4) ex ey := by
  have hpnone : _rect_from_bbox
      ⟨(_bbox p).x0 + ex, (_bbox p).y0, (_bbox p).x1 - ex, (_bbox p).y1⟩ = none := by
    unfold _rect_from_bbox
    rw [if_pos]
    exact Or.inl hp
  have hqnone : _rect_from_bbox
      ⟨(_bbox q).x0, (_bbox q).y0 + ey, (_bbox q).x1, (_bbox q).y1 - ey⟩ = none := by
    unfold _rect_from_bbox
    rw [if_pos]
    exact Or.inr hq
  have h1 : _assist_polys_horizontal (l1 ++ p :: l2) ex =
      _assist_polys_horizontal (l1 ++ l2) ex := by
    unfold _assist_polys_horizontal
    rw [List.filterMap_append, List.filterMap_append]
    congr 1
    rw [List.filterMap_cons]
    simp [hpnone]
  have h2 : _assist_polys_vertical (l3 ++ q :: l4) ey =
      _assist_polys_vertical (l3 ++ l4) ey := by
    unfold _assist_polys_vertical
    rw [List.filterMap_append, List.filterMap_append]
    congr 1
    rw [List.filterMap_cons]
    simp [hqnone]
  refine ⟨h1, h2, ?_, ?_⟩
  · unfold calc_candidates_from_polys
    rw [h1]
  · unfold calc_candidates_from_polys
    rw [h2]

theorem C7_collapsed_rect_discarded_witness :
    _assist_polys_horizontal ([] ++ (⟨0, 0, 1, 5, 110, 0⟩ : Rect) :: []) 1 =
      _assist_polys_horizontal ([] ++ []) 1 ∧
    _assist_polys_vertical ([] ++ (⟨0, 0, 5, 1, 111, 0⟩ : Rect) :: []) 1 =
      _assist_polys_vertical ([] ++ []) 1 ∧
    calc_candidates_from_polys ([] ++ (⟨0, 0, 1, 5, 110, 0⟩ : Rect) :: []) [] 1 1 =
      calc_candidates_from_polys ([] ++ []) [] 1 1 ∧
    calc_candidates_from_polys [] ([] ++ (⟨0, 0, 5, 1, 111, 0⟩ : Rect) :: []) 1 1 =
      calc_candidates_from_polys [] ([] ++ []) 1 1 :=
  C7_collapsed_rect_discarded 1 1 ⟨0, 0, 1, 5, 110, 0⟩ ⟨0, 0, 5, 1, 111, 0⟩
    [] [] [] [] [] []
    (by norm_num [_bbox, min_def, max_def]) (by norm_num [_bbox, min_def, max_def])

/-- C9: under the data-model invariants (positive lengths and pitches,
`max ≥ min`), `draw_metal_cell_vertical` terminates: each inner-loop
iteration advances the column cursor by at least `min_length > 0` and each
outer iteration advances `x` by `track_pitch > 0`, so the precomputed fuel
suffices and generation returns a result. -/
theorem C9_generation_terminates (spec : MetalGenSpec) (s : ℕ → ℚ)
    (hs : ValidStream s) (hw : 0 < spec.wire_cd) (hp : 0 < spec.track_pitch)
    (hml : 0 < spec.min_length) (hlm : spec.min_length ≤ spec.max_length)
    (ht : 0 < spec.min_t2t) (htm : spec.min_t2t ≤ spec.max_t2t) :
    (draw_metal_cell_vertical spec s).isSome := by
  have hb : spec.total_x - 0 < ((outer_fuel spec : ℕ) : ℚ) * spec.track_pitch := by
    unfold outer_fuel
    have := lt_fuel_mul spec.total_x spec.track_pitch hp
    push_cast at this ⊢
    linarith
  have h := cols_aux_isSome s spec hs hml ht hw hp (outer_fuel spec) 0 0 hb
  obtain ⟨v, hv⟩ := Option.isSome_iff_exists.mp h
  rw [draw_metal_cell_vertical, hv]
  rfl

theorem C9_generation_terminates_witness :
    (draw_metal_cell_vertical specW (fun _ => 1 / 2)).isSome :=
  C9_generation_terminates specW (fun _ => 1 / 2) halfStream_valid
    (by norm_num [specW]) (by norm_num [specW]) (by norm_num [specW])
    (by norm_num [specW]) (by norm_num [specW]) (by norm_num [specW])

/-- C4: under the data-model invariants, every rectangle emitted by the track
generator lies within `[origin, origin + (total_x, total_y)]`, every strap
lies within its implied extent `[0, length_x] × [0, total_y]`, every via
emitted by the via generator on those two layers lies within
`[origin, origin + (total_x, total_y)]`, and no emitted rectangle has
non-positive width or height (positivity is part of `rect_in_box`). -/
theorem C4_containment (spec : MetalGenSpec) (lx w pit : ℚ) (m1L : ℤ)
    (vspec : ViaGenSpec) (m2L : ℤ) (ms vs : ℕ → ℚ) (hms : ValidStream ms)
    (hw : 0 < spec.wire_cd) (hp : 0 < spec.track_pitch)
    (hml : 0 < spec.min_length) (ht : 0 < spec.min_t2t)
    (hlx : 0 < lx) (hwd : 0 < w) (hpit : 0 ≤ pit)
    (hvx : 0 < vspec.via_x) (hvy : 0 < vspec.via_y)
    (hey : 0 ≤ vspec.enclosure_y) (hlay : m1L ≠ m2L)
    (tracks straps : List Rect)
    (htr : draw_metal_cell_vertical spec ms = some tracks)
    (hst : draw_metal1 lx w pit spec.total_y m1L 0 = some straps) :
    (∀ r ∈ tracks,
      rect_in_box r spec.origin.1 spec.origin.2
        (spec.origin.1 + spec.total_x) (spec.origin.2 + spec.total_y)) ∧
    (∀ r ∈ straps, rect_in_box r 0 0 lx spec.total_y) ∧
    (∀ r ∈ generate_vias_from_metals (tracks ++ straps) vspec m1L m2L vs,
      rect_in_box r spec.origin.1 spec.origin.2
        (spec.origin.1 + spec.total_x) (spec.origin.2 + spec.total_y)) := by
  have htracks : ∀ r ∈ tracks,
      rect_in_box r spec.origin.1 spec.origin.2
        (spec.origin.1 + spec.total_x) (spec.origin.2 + spec.total_y) ∧
      r.layer = spec.layer ∧ r.datatype = spec.datatype := by
    rw [draw_metal_cell_vertical] at htr
    cases hcols : draw_metal_cols_aux ms spec (outer_fuel spec) 0 0 with
    | none =>
      rw [hcols] at htr
      simp at htr
    | some p =>
      rw [hcols] at htr
      obtain ⟨rs, idxe⟩ := p
      simp only [Option.map_some', Option.some_inj] at htr
      subst htr
      exact cols_aux_props ms spec hms hml ht hw hp (outer_fuel spec) 0 0 rs idxe
        le_rfl hcols
  have hstraps : ∀ r ∈ straps,
      rect_in_box r 0 0 lx spec.total_y ∧ r.layer = m1L ∧ r.datatype = 0 := by
    rw [draw_metal1] at hst
    exact strap_aux_props lx w pit spec.total_y m1L 0 hlx hwd hpit
      (strap_fuel pit spec.total_y) 0 straps le_rfl hst
  have hm2box : ∀ r ∈ _get_layer_polys (tracks ++ straps) m2L,
      rect_in_box r spec.origin.1 spec.origin.2
        (spec.origin.1 + spec.total_x) (spec.origin.2 + spec.total_y) := by
    intro r hrm
    unfold _get_layer_polys at hrm
    rw [List.filter_append] at hrm
    rcases List.mem_append.mp hrm with hrm | hrm
    · exact (htracks r (List.mem_of_mem_filter hrm)).1
    · have hr := List.mem_of_mem_filter hrm
      have hlay1 : r.layer = m1L := (hstraps r hr).2.1
      have hcond := List.of_mem_filter hrm
      simp only [Bool.and_eq_true, beq_iff_eq] at hcond
      exact absurd (hlay1 ▸ hcond.1) hlay
  exact ⟨fun r hr => (htracks r hr).1, fun r hr => (hstraps r hr).1,
    vias_in_box (tracks ++ straps) vspec m1L m2L vs _ _ _ _ hm2box hvx hvy hey⟩

theorem C4_containment_witness :
    (∀ r ∈ tracksW,
      rect_in_box r specW.origin.1 specW.origin.2
        (specW.origin.1 + specW.total_x) (specW.origin.2 + specW.total_y)) ∧
    (∀ r ∈ strapsW, rect_in_box r 0 0 3 specW.total_y) ∧
    (∀ r ∈ generate_vias_from_metals (tracksW ++ strapsW) vspecW 110 111
        (fun _ => 1 / 2),
      rect_in_box r specW.origin.1 specW.origin.2
        (specW.origin.1 + specW.total_x) (specW.origin.2 + specW.total_y)) :=
  C4_containment specW 3 1 2 110 vspecW 111 (fun _ => 1 / 2) (fun _ => 1 / 2)
    halfStream_valid (by norm_num [specW]) (by norm_num [specW])
    (by norm_num [specW]) (by norm_num [specW]) (by norm_num) (by norm_num)
    (by norm_num) (by norm_num [vspecW]) (by norm_num [vspecW])
    (by norm_num [vspecW]) (by decide) tracksW strapsW specW_tracks strapsW_eval

/-- C8: with density 0 the via generator emits no vias at all — every unit
draw is `≥ 0`, so no candidate passes the density test; with density 1 every
unit draw is `< 1`, so every size-passing candidate is kept, and when the
pitch constraints are loose enough that the greedy cleaner never drops a
point (nonpositive pitches make every gap acceptable), every candidate that
passes the size filter becomes an emitted via. -/
theorem C8_density_extremes (cell : List Rect) (vspec : ViaGenSpec)
    (m1L m2L : ℤ) (s : ℕ → ℚ) (hs : ValidStream s) :
    (vspec.density = 0 → generate_vias_from_metals cell vspec m1L m2L s = []) ∧
    (vspec.density = 1 → vspec.via_pitch_x ≤ 0 → vspec.via_pitch_y ≤ 0 →
      ∀ bb ∈ _calc_candidates cell m1L m2L vspec.enclosure_x vspec.enclosure_y,
        vspec.via_x ≤ bb.x1 - bb.x0 → vspec.via_y ≤ bb.y1 - bb.y0 →
        via_rect_at vspec ((bb.x0 + bb.x1) / 2, (bb.y0 + bb.y1) / 2) ∈
          generate_vias_from_metals cell vspec m1L m2L s) := by
  constructor
  · intro hd
    simp only [generate_vias_from_metals, _sample_centers_from_bboxes]
    rw [sample_aux_empty s vspec.via_x vspec.via_y vspec.density hs (le_of_eq hd) _ 0]
    simp [_pitch_clean]
  · intro hd hpx hpy bb hbb h1 h2
    have hkeep : ∀ n, s n < vspec.density := by
      intro n
      rw [hd]
      exact (hs n).2
    have hmem := sample_aux_all s vspec.via_x vspec.via_y vspec.density hkeep
      _ 0 bb hbb h1 h2
    simp only [generate_vias_from_metals]
    exact List.mem_map_of_mem (via_rect_at vspec)
      (pitch_clean_keeps _ _ _ _ _ hpx hpy _ hmem)

theorem C8_density_extremes_witness :
    generate_vias_from_metals cellW vspecD0 110 111 (fun _ => 1 / 2) = [] ∧
    via_rect_at vspecW (((0 : ℚ) + 1) / 2, ((0 : ℚ) + 1) / 2) ∈
      generate_vias_from_metals cellW vspecW 110 111 (fun _ => 1 / 2) := by
  constructor
  · exact (C8_density_extremes cellW vspecD0 110 111 (fun _ => 1 / 2)
      halfStream_valid).1 rfl
  · have hbb : (⟨0, 0, 1, 1⟩ : BBox) ∈
        _calc_candidates cellW 110 111 vspecW.enclosure_x vspecW.enclosure_y := by
      have : _calc_candidates cellW 110 111 vspecW.enclosure_x vspecW.enclosure_y =
          _calc_candidates cellW 110 111 0 0 := rfl
      rw [this, candW_eval]
      exact List.mem_cons_self _ _
    exact (C8_density_extremes cellW vspecW 110 111 (fun _ => 1 / 2)
      halfStream_valid).2 rfl (by norm_num [vspecW]) (by norm_num [vspecW])
      ⟨0, 0, 1, 1⟩ hbb (by norm_num [vspecW]) (by norm_num [vspecW])

/-- C10: the pitch cleaner only removes points — its output is a subset of
its input centers — and every via rectangle the pipeline emits is the
`via_x × via_y` rectangle centered exactly at the midpoint of some candidate
overlap bounding box that passed the size filter (and the density draw, since
it reached the cleaner). -/
theorem C10_cleaner_subset_via_centers (centers : List Point) (vpx vpy : ℚ)
    (pm1 pm2 : List Rect) (cell : List Rect) (vspec : ViaGenSpec)
    (m1L m2L : ℤ) (s : ℕ → ℚ) :
    (∀ c ∈ _pitch_clean centers vpx vpy pm1 pm2, c ∈ centers) ∧
    (∀ r ∈ generate_vias_from_metals cell vspec m1L m2L s,
      ∃ bb ∈ _calc_candidates cell m1L m2L vspec.enclosure_x vspec.enclosure_y,
        vspec.via_x ≤ bb.x1 - bb.x0 ∧ vspec.via_y ≤ bb.y1 - bb.y0 ∧
        r = via_rect_at vspec ((bb.x0 + bb.x1) / 2, (bb.y0 + bb.y1) / 2)) := by
  refine ⟨pitch_clean_subset centers vpx vpy pm1 pm2, ?_⟩
  intro r hr
  simp only [generate_vias_from_metals] at hr
  obtain ⟨c, hcf, hcr⟩ := List.mem_map.mp hr
  have hcc := pitch_clean_subset _ _ _ _ _ c hcf
  obtain ⟨bb, hbb, h1, h2, h3⟩ := sample_aux_mem s vspec.via_x vspec.via_y
    vspec.density _ 0 c hcc
  refine ⟨bb, hbb, h1, h2, ?_⟩
  rw [← hcr, h3]

theorem C10_cleaner_subset_via_centers_witness :
    ∃ bb ∈ _calc_candidates cellW 110 111 vspecW.enclosure_x vspecW.enclosure_y,
      vspecW.via_x ≤ bb.x1 - bb.x0 ∧ vspecW.via_y ≤ bb.y1 - bb.y0 ∧
      (⟨0, 0, 1, 1, 112, 0⟩ : Rect) =
        via_rect_at vspecW ((bb.x0 + bb.x1) / 2, (bb.y0 + bb.y1) / 2) := by
  have hmem : (⟨0, 0, 1, 1, 112, 0⟩ : Rect) ∈
      generate_vias_from_metals cellW vspecW 110 111 (fun _ => 1 / 2) := by
    rw [viasW_eval]
    exact List.mem_cons_self _ _
  exact (C10_cleaner_subset_via_centers [] 0 0 [] [] cellW vspecW 110 111
    (fun _ => 1 / 2)).2 ⟨0, 0, 1, 1, 112, 0⟩ hmem
